import Mathlib

/-!
# Verification development for the image-processing pipeline (`main.go`)

The Go program downloads a list of images concurrently, stages them under
`inputs/`, and converts each staged file to grayscale with a fixed pool of
workers.  This file contains a shallow embedding of the program:

* the string and path helpers of the Go standard library that `main.go`
  calls (`strings.TrimSuffix`, `filepath.Base`, `filepath.Ext`,
  `filepath.Clean`, `filepath.Join`, the `%d` verb of `fmt.Sprintf`), for the
  Unix separator `/`;
* `Converter.Grayscale`, `ProcessImage`, `GetImageFromLink`, `readCSV` and the
  start-up part of `main` as functions over explicit world state;
* the goroutines of `main` as an interleaving step function on a pipeline
  state (wait-group counters, the channel, one entry per goroutine).

Go strings are byte strings; the helpers modelled here only ever inspect the
ASCII bytes `/` and `.`, so a string is represented by its list of characters.
-/

namespace ImagePipeline

/-- A Go `string`, as the list of its characters. -/
abbrev GoString := List Char

/-! ## `strings` -/

/-- Go `strings.HasSuffix`: `len(s) >= len(suffix) && s[len(s)-len(suffix):] == suffix`. -/
def HasSuffix (s suffix : GoString) : Bool :=
  decide (suffix.length ≤ s.length ∧ s.drop (s.length - suffix.length) = suffix)

/-- Go `strings.TrimSuffix`: `s` without the trailing `suffix`, or `s` itself when
`s` does not end in `suffix`. -/
def TrimSuffix (s suffix : GoString) : GoString :=
  if HasSuffix s suffix then s.take (s.length - suffix.length) else s

/-- Go `strings.Join(elems, sep)`. -/
def stringsJoin (elems : List GoString) (sep : GoString) : GoString :=
  sep.intercalate elems

/-! ## `strconv` / `fmt` -/

/-- The byte `'0' + d` written by `strconv.formatBits` for a decimal digit. -/
def decimalDigit (d : Nat) : Char := Char.ofNat (48 + d)

/-- The digit loop of `strconv.formatBits` in base 10: while `us >= 10` the digit
`us % 10` is written in front of the digits produced so far and `us` is divided
by ten; the last digit is `us` itself.  The first argument bounds the number of
iterations. -/
def formatBits : Nat → Nat → GoString → GoString
  | 0, _, acc => acc
  | fuel + 1, us, acc =>
    if us < 10 then decimalDigit us :: acc
    else formatBits fuel (us / 10) (decimalDigit (us % 10) :: acc)

/-- Go `strconv.Itoa` on a non-negative `int` (the `%d` verb of `fmt.Sprintf`). -/
def Itoa (n : Nat) : GoString := formatBits (n + 1) n []

/-! ## `path/filepath` (Unix) -/

/-- The scan of `filepath.Ext`: walks `path` backwards from its last byte (the
first argument is the unread part of `path`, reversed; the second the bytes
already passed), stops with `""` at a separator and with `path[i:]` at a dot. -/
def extScan : GoString → GoString → GoString
  | [], _ => []
  | c :: before, after =>
    if c = '/' then []
    else if c = '.' then c :: after
    else extScan before (c :: after)

/-- Go `filepath.Ext`: the suffix beginning at the final dot in the final element
of `path`; empty if there is no dot. -/
def Ext (path : GoString) : GoString := extScan path.reverse []

/-- Go `filepath.Base`: the last element of `path`, trailing separators removed;
`"."` for the empty path and `"/"` for a path of separators only. -/
def Base (path : GoString) : GoString :=
  if path = [] then ['.']
  else
    -- strip trailing slashes
    let stripped := (path.reverse.dropWhile (fun c => decide (c = '/'))).reverse
    -- find the last element
    let last := (stripped.reverse.takeWhile (fun c => decide (c ≠ '/'))).reverse
    -- if empty now, it had only slashes
    if last = [] then ['/'] else last

/-- The output buffer of `filepath.Clean` (`out.w` is `out.length`) together with
`dotdot`, the index in the buffer where a `..` element must stop. -/
structure CleanState where
  out : GoString
  dotdot : Nat
deriving DecidableEq, Repr

/-- The backtracking of `filepath.Clean` at a `..` element, on the reversed
buffer: `out.w--`, then `out.w--` again as long as `out.w > dotdot` and the byte
at `out.w` is not a separator. -/
def backtrack (dotdot : Nat) : GoString → GoString
  | [] => []
  | c :: r => if dotdot < r.length ∧ c ≠ '/' then backtrack dotdot r else r

/-- The `..` case of `filepath.Clean`: backtrack when possible, append `..` when
the path is not rooted, drop the element when it is. -/
def cleanDotDot (rooted : Bool) (st : CleanState) : CleanState :=
  if st.dotdot < st.out.length then
    { st with out := (backtrack st.dotdot st.out.reverse).reverse }
  else if rooted = false then
    let out1 := if 0 < st.out.length then st.out ++ ['/'] else st.out
    let out2 := out1 ++ ['.', '.']
    { out := out2, dotdot := out2.length }
  else st

/-- The separator that `filepath.Clean` writes before a real path element:
`if rooted && out.w != 1 || !rooted && out.w != 0 { out.append(Separator) }`. -/
def cleanAddSep (rooted : Bool) (st : CleanState) : CleanState :=
  if (rooted = true ∧ st.out.length ≠ 1) ∨ (rooted = false ∧ st.out.length ≠ 0) then
    { st with out := st.out ++ ['/'] }
  else st

/-- Whether the unread input stands at the end of a path element
(`r == n || os.IsPathSeparator(path[r])`). -/
def atElemEnd (rest : GoString) : Bool :=
  match rest with
  | [] => true
  | c :: _ => decide (c = '/')

/-- The main loop of `filepath.Clean` over the unread input.  The flag is `true`
while the inner loop that copies a real path element is running. -/
def cleanLoop (rooted : Bool) : Bool → GoString → CleanState → CleanState
  | _, [], st => st
  | true, c :: rest, st =>
    if c = '/' then cleanLoop rooted false rest st
    else cleanLoop rooted true rest { st with out := st.out ++ [c] }
  | false, [c], st =>
    if c = '/' then st
    else if c = '.' then st
    else { cleanAddSep rooted st with out := (cleanAddSep rooted st).out ++ [c] }
  | false, c :: d :: rest, st =>
    if c = '/' then
      -- empty path element
      cleanLoop rooted false (d :: rest) st
    else if c = '.' ∧ d = '/' then
      -- . element
      cleanLoop rooted false (d :: rest) st
    else if c = '.' ∧ d = '.' ∧ atElemEnd rest = true then
      -- .. element
      cleanLoop rooted false rest (cleanDotDot rooted st)
    else
      -- real path element: add slash if needed, copy element
      cleanLoop rooted true (d :: rest)
        { cleanAddSep rooted st with out := (cleanAddSep rooted st).out ++ [c] }

/-- Go `filepath.Clean` on Unix (no volume name, `FromSlash` is the identity). -/
def Clean (path : GoString) : GoString :=
  match path with
  | [] => ['.']
  | c :: rest =>
    let st :=
      if c = '/' then cleanLoop true false rest { out := ['/'], dotdot := 1 }
      else cleanLoop false false (c :: rest) { out := [], dotdot := 0 }
    -- turn empty string into "."
    if st.out.length = 0 then ['.'] else st.out

/-- Go `filepath.Join` on Unix: the elements from the first non-empty one on are
joined with `/` and cleaned; the result is empty when every element is empty. -/
def Join : List GoString → GoString
  | [] => []
  | e :: rest =>
    if e ≠ [] then Clean (stringsJoin (e :: rest) ['/']) else Join rest

/-! ## The program: converter, download, CSV input -/

/-- A non-nil Go `error` value, identified by its message. -/
structure GoError where
  message : GoString
deriving DecidableEq, Repr

/-- A line written by the program, one constructor per call site in `main.go`. -/
inductive LogEntry where
  /-- The call of `flag.Usage()` at line 42. -/
  | usage
  /-- The call of `log.Println(err)` at line 49, after `readCSV` failed. -/
  | csvError (err : GoError)
  /-- The call of `log.Println(err)` at line 77, after `GetImageFromLink` failed. -/
  | downloadError (err : GoError)
  /-- The call of `log.Printf` at line 168 in `ProcessImage`. -/
  | processing (inputImagePath outputImagePath : GoString)
  /-- The call of `log.Println(err)` at line 98, after `ProcessImage` failed. -/
  | conversionError (err : GoError)
deriving DecidableEq, Repr

/-- What a goroutine can affect: the process-wide log and the state `ext` of
everything outside the process that the conversion command acts on. -/
structure World (τ : Type) where
  log : List LogEntry
  ext : τ
deriving DecidableEq, Repr

/-- The type `ConvertImageCommand`: a command taking an argument list and returning
an error or nil (the `*imagick.ImageCommandResult` is discarded by the only caller).
The command acts on the outside state `τ`. -/
abbrev ConvertImageCommand (τ : Type) := List GoString → τ → Option GoError × τ

/-- The struct `Converter`. -/
structure Converter (τ : Type) where
  cmd : ConvertImageCommand τ

/-- The method `Converter.Grayscale` (lines 25-32). -/
def Converter.Grayscale {τ : Type} (c : Converter τ) (inputFilepath outputFilepath : GoString)
    (ext : τ) : Option GoError × τ :=
  c.cmd ["convert".toList, inputFilepath, "-set".toList, "colorspace".toList, "Gray".toList,
    outputFilepath] ext

/-- The output path computed at lines 159-166 of `ProcessImage`. -/
def outputImagePath (inputImagePath outputDirPath : GoString) : GoString :=
  let base := Base inputImagePath
  let ext := Ext base
  let name := TrimSuffix base ext
  Join [outputDirPath, name ++ "-grayscaled".toList ++ ext]

/-- The function `ProcessImage` (lines 157-171). -/
def ProcessImage {τ : Type} (converter : Converter τ) (inputImagePath outputDirPath : GoString)
    (w : World τ) : Option GoError × World τ :=
  let outputImagePath := outputImagePath inputImagePath outputDirPath
  let w1 := { w with log := w.log ++ [LogEntry.processing inputImagePath outputImagePath] }
  -- do the conversion
  let r := converter.Grayscale inputImagePath outputImagePath w1.ext
  (r.1, { w1 with ext := r.2 })

/-- A conversion command that only records the argument list of every call. -/
def recordingCommand : ConvertImageCommand (List (List GoString)) :=
  fun args calls => (none, calls ++ [args])

/-- The outcomes of the three external calls made by one run of `GetImageFromLink`:
`http.Get(link)`, `os.Create(imagePath)` and `io.Copy(file, response.Body)`; `none`
is a nil error. -/
structure DownloadEnv where
  httpGet : GoString → Option GoError
  osCreate : GoString → Option GoError
  ioCopy : GoString → Option GoError

/-- The function `GetImageFromLink` (lines 136-155) on the list of files created so
far: returns the error and the new list of created files. -/
def GetImageFromLink (env : DownloadEnv) (dir filename link : GoString)
    (created : List GoString) : Option GoError × List GoString :=
  match env.httpGet link with
  | some err => (some err, created)
  | none =>
    let imagePath := Join [dir, filename]
    match env.osCreate imagePath with
    | some err => (some err, created)
    | none => (env.ioCopy imagePath, created ++ [imagePath])

/-- The value of `fmt.Sprintf("image%d.jpg", id)` at line 73. -/
def imageFilename (id : Nat) : GoString :=
  "image".toList ++ Itoa id ++ ".jpg".toList

/-- The handle `filepath.Join("inputs", filename)` sent at line 81 by the download
task for position `id`. -/
def stagedImage (id : Nat) : GoString :=
  Join ["inputs".toList, imageFilename id]

/-- A CSV reader as `readCSV` sees it: the results of the successive calls of
`reader.Read()` that come before `io.EOF`, each a record or an error. -/
abbrev CsvReader := List (Except GoError (List GoString))

/-- The read loop of `readCSV` (lines 119-131). -/
def readCSVLoop : CsvReader → List GoString → Except GoError (List GoString)
  | [], imageLinks => Except.ok imageLinks
  | Except.error err :: _, _ => Except.error err
  | Except.ok imageLink :: rest, imageLinks => readCSVLoop rest (imageLinks ++ imageLink)

/-- The function `readCSV` (lines 107-134); `osOpen` gives the result of
`os.Open(csvFilePath)` followed by `csv.NewReader`. -/
def readCSV (osOpen : GoString → Except GoError CsvReader) (csvFilePath : GoString) :
    Except GoError (List GoString) :=
  match osOpen csvFilePath with
  | Except.error err => Except.error err
  | Except.ok reader => readCSVLoop reader []

/-! ## The goroutines of `main` -/

/-- Everything the pipeline of `main` is run with: the links read from the CSV file,
the `--output` flag, the value of `runtime.NumCPU()`, and the outcomes of the
external calls (network, file system, ImageMagick).  `httpGet id` is the outcome of
the `http.Get` call made by the download task for position `id`. -/
structure Cfg where
  imageLinks : List GoString
  outputDirPath : GoString
  numCPU : Nat
  httpGet : Nat → GoString → Option GoError
  osCreate : GoString → Option GoError
  ioCopy : GoString → Option GoError
  convert : List GoString → Option GoError

/-- The command `imagick.ConvertImageCommand` that `main` puts in the converter, as
the pipeline sees it: the outcome is given by `Cfg.convert`, and a successful call
has written its last argument, the output file. -/
def imagickConvertImageCommand (cfg : Cfg) : ConvertImageCommand (List GoString) :=
  fun args written =>
    match cfg.convert args with
    | some err => (some err, written)
    | none => (none, written ++ [args.getLast?.getD []])

/-- The channel `downloadedImage`: capacity, buffered values, closed flag. -/
structure Chan where
  cap : Nat
  buf : List GoString
  closed : Bool
deriving DecidableEq, Repr

/-- Go `make(chan string)`: an open channel without a buffer. -/
def makeChan : Chan := { cap := 0, buf := [], closed := false }

/-- Where the goroutine of `main` stands in lines 68-104. -/
inductive MainPc where
  /-- At the head of the loop of line 68, about to handle position `id`. -/
  | spawnDownloads (id : Nat)
  /-- At line 90, before `processWG.Add(runtime.NumCPU())`. -/
  | addWorkers
  /-- At the head of the loop of line 91 with loop variable `process`. -/
  | spawnWorkers (process : Nat)
  /-- Blocked in `processWG.Wait()` at line 104. -/
  | waitWorkers
  /-- The function `main` has returned. -/
  | returned
deriving DecidableEq, Repr

/-- The download goroutine of lines 70-82. -/
inductive Download where
  /-- Not started yet. -/
  | absent
  /-- Inside `GetImageFromLink` (line 75). -/
  | fetching
  /-- At the send of line 81. -/
  | sending
  /-- The body is over; the deferred `downloadWG.Done()` has not run yet. -/
  | returning
  /-- The goroutine has ended. -/
  | finished
deriving DecidableEq, Repr

/-- The goroutine of lines 85-88. -/
inductive Coordinator where
  /-- Not started yet. -/
  | absent
  /-- Blocked in `downloadWG.Wait()`. -/
  | waiting
  /-- After `Wait` has returned, before `close(downloadedImage)`. -/
  | closing
  /-- The goroutine has ended. -/
  | finished
deriving DecidableEq, Repr

/-- A worker goroutine of lines 92-101. -/
inductive Worker where
  /-- At the receive of the `range` loop (line 95). -/
  | receiving
  /-- Inside `ProcessImage` for the received `image` (line 96). -/
  | processing (image : GoString)
  /-- The loop is over and the deferred `processWG.Done()` has run. -/
  | finished
deriving DecidableEq, Repr

/-- The state of the pipeline of `main`. -/
structure PState where
  pc : MainPc
  downloadWG : Nat
  processWG : Nat
  downloadedImage : Chan
  downloads : List Download
  coordinator : Coordinator
  workers : List Worker
  /-- The files created by `os.Create` in `GetImageFromLink`. -/
  created : List GoString
  /-- The process-wide log and the files written by the conversion command. -/
  world : World (List GoString)
  /-- A run-time panic has happened (send on a closed channel, close of a closed
  channel, negative wait-group counter). -/
  panicked : Bool
deriving DecidableEq, Repr

/-- The state at line 66, after `downloadedImage := make(chan string)`. -/
def PState.init (cfg : Cfg) : PState :=
  { pc := MainPc.spawnDownloads 0
    downloadWG := 0
    processWG := 0
    downloadedImage := makeChan
    downloads := List.replicate cfg.imageLinks.length Download.absent
    coordinator := Coordinator.absent
    workers := []
    created := []
    world := { log := [], ext := [] }
    panicked := false }

/-- The atomic steps of the goroutines. -/
inductive Action where
  /-- The next statement of the goroutine of `main`. -/
  | main
  /-- The call of `GetImageFromLink` returns in the download task `id`. -/
  | download (id : Nat)
  /-- The send of task `id` and the receive of worker `w` meet. -/
  | handOff (id w : Nat)
  /-- The send of task `id` puts its value into the buffer of the channel. -/
  | sendBuffered (id : Nat)
  /-- The send of task `id` finds the channel closed. -/
  | sendClosed (id : Nat)
  /-- The deferred `downloadWG.Done()` of task `id`. -/
  | downloadDone (id : Nat)
  /-- The call `downloadWG.Wait()` returns in the coordinator. -/
  | waitReturns
  /-- The coordinator executes `close(downloadedImage)`. -/
  | close
  /-- Worker `w` receives a buffered value. -/
  | receive (w : Nat)
  /-- The call of `ProcessImage` returns in worker `w`. -/
  | process (w : Nat)
  /-- Worker `w` finds the channel closed and empty, leaves the loop and runs the
  deferred `processWG.Done()`. -/
  | workerDone (w : Nat)
deriving DecidableEq, Repr

/-- One statement of the goroutine of `main` (lines 68-104). -/
def stepMain (cfg : Cfg) (s : PState) : Option PState :=
  match s.pc with
  | MainPc.spawnDownloads id =>
    if id < cfg.imageLinks.length then
      -- downloadWG.Add(1); go func(id, link, downloadedImage)
      some { s with
        downloadWG := s.downloadWG + 1
        downloads := s.downloads.set id Download.fetching
        pc := MainPc.spawnDownloads (id + 1) }
    else
      -- the loop is over: go func() { downloadWG.Wait(); close(downloadedImage) }
      some { s with coordinator := Coordinator.waiting, pc := MainPc.addWorkers }
  | MainPc.addWorkers =>
    some { s with processWG := s.processWG + cfg.numCPU, pc := MainPc.spawnWorkers 1 }
  | MainPc.spawnWorkers process =>
    if process ≤ cfg.numCPU then
      some { s with
        workers := s.workers ++ [Worker.receiving]
        pc := MainPc.spawnWorkers (process + 1) }
    else some { s with pc := MainPc.waitWorkers }
  | MainPc.waitWorkers =>
    if s.processWG = 0 then some { s with pc := MainPc.returned } else none
  | MainPc.returned => none

/-- The step function of the pipeline: the state after the action, or `none` when
the action cannot be taken.  Nothing runs after `main` has returned or after a panic. -/
def step (cfg : Cfg) (a : Action) (s : PState) : Option PState :=
  if s.pc = MainPc.returned ∨ s.panicked = true then none
  else
    match a with
    | Action.main => stepMain cfg s
    | Action.download id =>
      match s.downloads[id]?, cfg.imageLinks[id]? with
      | some Download.fetching, some link =>
        let env : DownloadEnv :=
          { httpGet := cfg.httpGet id, osCreate := cfg.osCreate, ioCopy := cfg.ioCopy }
        let r := GetImageFromLink env "inputs".toList (imageFilename id) link s.created
        match r.1 with
        | some err =>
          some { s with
            created := r.2
            world := { s.world with log := s.world.log ++ [LogEntry.downloadError err] }
            downloads := s.downloads.set id Download.returning }
        | none =>
          some { s with created := r.2, downloads := s.downloads.set id Download.sending }
      | _, _ => none
    | Action.handOff id w =>
      match s.downloads[id]?, s.workers[w]? with
      | some Download.sending, some Worker.receiving =>
        if s.downloadedImage.closed = false ∧ s.downloadedImage.buf = [] then
          some { s with
            downloads := s.downloads.set id Download.returning
            workers := s.workers.set w (Worker.processing (stagedImage id)) }
        else none
      | _, _ => none
    | Action.sendBuffered id =>
      match s.downloads[id]? with
      | some Download.sending =>
        if s.downloadedImage.closed = false ∧ s.downloadedImage.buf.length < s.downloadedImage.cap then
          some { s with
            downloads := s.downloads.set id Download.returning
            downloadedImage := { s.downloadedImage with buf := s.downloadedImage.buf ++ [stagedImage id] } }
        else none
      | _ => none
    | Action.sendClosed id =>
      match s.downloads[id]? with
      | some Download.sending =>
        if s.downloadedImage.closed = true then some { s with panicked := true } else none
      | _ => none
    | Action.downloadDone id =>
      match s.downloads[id]? with
      | some Download.returning =>
        if s.downloadWG = 0 then some { s with panicked := true }
        else
          some { s with
            downloadWG := s.downloadWG - 1
            downloads := s.downloads.set id Download.finished }
      | _ => none
    | Action.waitReturns =>
      if s.coordinator = Coordinator.waiting ∧ s.downloadWG = 0 then
        some { s with coordinator := Coordinator.closing }
      else none
    | Action.close =>
      if s.coordinator = Coordinator.closing then
        if s.downloadedImage.closed = true then some { s with panicked := true }
        else
          some { s with
            downloadedImage := { s.downloadedImage with closed := true }
            coordinator := Coordinator.finished }
      else none
    | Action.receive w =>
      match s.workers[w]?, s.downloadedImage.buf with
      | some Worker.receiving, image :: rest =>
        some { s with
          downloadedImage := { s.downloadedImage with buf := rest }
          workers := s.workers.set w (Worker.processing image) }
      | _, _ => none
    | Action.process w =>
      match s.workers[w]? with
      | some (Worker.processing image) =>
        let converter : Converter (List GoString) := { cmd := imagickConvertImageCommand cfg }
        let r := ProcessImage converter image cfg.outputDirPath s.world
        match r.1 with
        | some err =>
          some { s with
            world := { r.2 with log := r.2.log ++ [LogEntry.conversionError err] }
            workers := s.workers.set w Worker.receiving }
        | none => some { s with world := r.2, workers := s.workers.set w Worker.receiving }
      | _ => none
    | Action.workerDone w =>
      match s.workers[w]? with
      | some Worker.receiving =>
        if s.downloadedImage.closed = true ∧ s.downloadedImage.buf = [] then
          if s.processWG = 0 then some { s with panicked := true }
          else
            some { s with
              processWG := s.processWG - 1
              workers := s.workers.set w Worker.finished }
        else none
      | _ => none

/-- The actions `as` taken one after the other from `s`; `none` as soon as one of
them cannot be taken. -/
def exec (cfg : Cfg) : List Action → PState → Option PState
  | [], s => some s
  | a :: as, s =>
    match step cfg a s with
    | some t => exec cfg as t
    | none => none

/-- The states the pipeline can reach from the state of line 66. -/
inductive Reachable (cfg : Cfg) : PState → Prop where
  | init : Reachable cfg (PState.init cfg)
  | step {s t : PState} (a : Action) : Reachable cfg s → step cfg a s = some t → Reachable cfg t

/-! ## The start-up part of `main` -/

/-- How the start-up part of `main` (lines 35-60) ends. -/
inductive Startup where
  /-- The call `os.Exit(status)` at line 43, after the usage message. -/
  | exit (status : Nat) (log : List LogEntry)
  /-- The `return` of line 50: `main` returns, so the process ends with status 0. -/
  | returned (log : List LogEntry)
  /-- The pipeline is set up in its first state. -/
  | pipeline (s : PState)

/-- Lines 35-66 of `main`: the flags, the CSV file, the first state of the pipeline. -/
def mainStartup (osOpen : GoString → Except GoError CsvReader) (inputCSVPath outputDirPath : GoString)
    (outside : Cfg) : Startup :=
  -- ensure that both flags were set
  if inputCSVPath = [] ∨ outputDirPath = [] then Startup.exit 1 [LogEntry.usage]
  else
    -- read csv to get the image links
    match readCSV osOpen inputCSVPath with
    | Except.error err => Startup.returned [LogEntry.csvError err]
    | Except.ok imageLinks =>
      Startup.pipeline
        (PState.init { outside with imageLinks := imageLinks, outputDirPath := outputDirPath })

/-- The exit status of the process when the start-up part ended the run: the
argument of `os.Exit`, or 0 when `main` returned. -/
def Startup.exitStatus : Startup → Option Nat
  | Startup.exit status _ => some status
  | Startup.returned _ => some 0
  | Startup.pipeline _ => none

/-- The number of download tasks and workers that exist after the start-up part. -/
def Startup.goroutines : Startup → Nat
  | Startup.exit _ _ => 0
  | Startup.returned _ => 0
  | Startup.pipeline s =>
    (s.downloads.filter (fun d => decide (d ≠ Download.absent))).length + s.workers.length

/-! ## Definitions used in the statements and proofs -/

/-- A real path element for `filepath.Clean`: not empty, without separator, and
neither `.` nor `..`. -/
def RealElem (e : GoString) : Prop :=
  e ≠ [] ∧ '/' ∉ e ∧ e ≠ ['.'] ∧ e ≠ ['.', '.']

/-- The invariant of `filepath.Clean` on a rooted path: `dotdot` stays 1 and the
buffer starts with the separator. -/
def RootedInv (st : CleanState) : Prop :=
  st.dotdot = 1 ∧ ∃ t, st.out = '/' :: t

/-- The text that `filepath.Clean` has written when it reaches the last element of
`q ++ "/" ++ e`, separator included. -/
def cleanHead (q : GoString) : GoString :=
  match q with
  | [] => ['/']
  | c :: rest =>
    if c = '/' then (cleanAddSep true (cleanLoop true false rest { out := ['/'], dotdot := 1 })).out
    else (cleanAddSep false (cleanLoop false false (c :: rest) { out := [], dotdot := 0 })).out

/-- A byte that is neither the separator nor a dot. -/
def Plain (c : Char) : Prop := c ≠ '/' ∧ c ≠ '.'

instance (c : Char) : Decidable (Plain c) := by
  unfold Plain
  infer_instance

/-- The value of a decimal digit byte. -/
def digitValue (c : Char) : Nat := c.toNat - 48

/-- The number read from decimal digits, continuing from the value `v`. -/
def parseDecimal (v : Nat) (digits : GoString) : Nat :=
  digits.foldl (fun v c => 10 * v + digitValue c) v

/-- The text that `filepath.Join` puts in front of a real last element. -/
def joinHead (d : GoString) : GoString := if d = [] then [] else cleanHead d

/-- The last path element that `ProcessImage` derives for the handle of position `id`. -/
def grayscaledName (id : Nat) : GoString :=
  "image".toList ++ Itoa id ++ "-grayscaled.jpg".toList

/-- A conversion command that behaves like `cmd` and also records the argument
list of every call. -/
def countingCommand {τ : Type} (cmd : ConvertImageCommand τ) :
    ConvertImageCommand (τ × List (List GoString)) :=
  fun args st => ((cmd args st.1).1, ((cmd args st.1).2, st.2 ++ [args]))

/-- The argument list that `Converter.Grayscale` hands to the command. -/
def convertArgs (inputFilepath outputFilepath : GoString) : List GoString :=
  ["convert".toList, inputFilepath, "-set".toList, "colorspace".toList, "Gray".toList,
    outputFilepath]

/-- The external calls of the download task for position `id`. -/
def Cfg.downloadEnv (cfg : Cfg) (id : Nat) : DownloadEnv :=
  { httpGet := cfg.httpGet id, osCreate := cfg.osCreate, ioCopy := cfg.ioCopy }

/-- The error that `GetImageFromLink` returns in the download task for position `id`
(`none` for nil, and for a position without link). -/
def Cfg.downloadResult (cfg : Cfg) (id : Nat) : Option GoError :=
  match cfg.imageLinks[id]? with
  | some link => (GetImageFromLink (cfg.downloadEnv id) "inputs".toList (imageFilename id) link []).1
  | none => none

/-- The error that the conversion command returns for the staged file `image`. -/
def Cfg.convertResult (cfg : Cfg) (image : GoString) : Option GoError :=
  cfg.convert (convertArgs image (outputImagePath image cfg.outputDirPath))

/-- The steps of the pipeline, one case per branch of `step`, with the state after
the step written out. -/
inductive Trans (cfg : Cfg) : Action → PState → PState → Prop where
  | spawnDownload (s : PState) (id : Nat) :
    s.pc = MainPc.spawnDownloads id → id < cfg.imageLinks.length →
    Trans cfg Action.main s { s with
      downloadWG := s.downloadWG + 1
      downloads := s.downloads.set id Download.fetching
      pc := MainPc.spawnDownloads (id + 1) }
  | spawnCoordinator (s : PState) (id : Nat) :
    s.pc = MainPc.spawnDownloads id → ¬ id < cfg.imageLinks.length →
    Trans cfg Action.main s { s with coordinator := Coordinator.waiting, pc := MainPc.addWorkers }
  | addWorkers (s : PState) :
    s.pc = MainPc.addWorkers →
    Trans cfg Action.main s
      { s with processWG := s.processWG + cfg.numCPU, pc := MainPc.spawnWorkers 1 }
  | spawnWorker (s : PState) (p : Nat) :
    s.pc = MainPc.spawnWorkers p → p ≤ cfg.numCPU →
    Trans cfg Action.main s { s with
      workers := s.workers ++ [Worker.receiving]
      pc := MainPc.spawnWorkers (p + 1) }
  | workersSpawned (s : PState) (p : Nat) :
    s.pc = MainPc.spawnWorkers p → ¬ p ≤ cfg.numCPU →
    Trans cfg Action.main s { s with pc := MainPc.waitWorkers }
  | mainReturns (s : PState) :
    s.pc = MainPc.waitWorkers → s.processWG = 0 →
    Trans cfg Action.main s { s with pc := MainPc.returned }
  | downloadFails (s : PState) (id : Nat) (link : GoString) (err : GoError) :
    s.downloads[id]? = some Download.fetching → cfg.imageLinks[id]? = some link →
    (GetImageFromLink (cfg.downloadEnv id) "inputs".toList (imageFilename id) link s.created).1
      = some err →
    Trans cfg (Action.download id) s { s with
      created := (GetImageFromLink (cfg.downloadEnv id) "inputs".toList (imageFilename id) link
        s.created).2
      world := { s.world with log := s.world.log ++ [LogEntry.downloadError err] }
      downloads := s.downloads.set id Download.returning }
  | downloadOk (s : PState) (id : Nat) (link : GoString) :
    s.downloads[id]? = some Download.fetching → cfg.imageLinks[id]? = some link →
    (GetImageFromLink (cfg.downloadEnv id) "inputs".toList (imageFilename id) link s.created).1
      = none →
    Trans cfg (Action.download id) s { s with
      created := (GetImageFromLink (cfg.downloadEnv id) "inputs".toList (imageFilename id) link
        s.created).2
      downloads := s.downloads.set id Download.sending }
  | handOff (s : PState) (id w : Nat) :
    s.downloads[id]? = some Download.sending → s.workers[w]? = some Worker.receiving →
    s.downloadedImage.closed = false → s.downloadedImage.buf = [] →
    Trans cfg (Action.handOff id w) s { s with
      downloads := s.downloads.set id Download.returning
      workers := s.workers.set w (Worker.processing (stagedImage id)) }
  | sendBuffered (s : PState) (id : Nat) :
    s.downloads[id]? = some Download.sending →
    s.downloadedImage.closed = false → s.downloadedImage.buf.length < s.downloadedImage.cap →
    Trans cfg (Action.sendBuffered id) s { s with
      downloads := s.downloads.set id Download.returning
      downloadedImage := { s.downloadedImage with buf := s.downloadedImage.buf ++ [stagedImage id] } }
  | sendClosed (s : PState) (id : Nat) :
    s.downloads[id]? = some Download.sending → s.downloadedImage.closed = true →
    Trans cfg (Action.sendClosed id) s { s with panicked := true }
  | downloadDoneNegative (s : PState) (id : Nat) :
    s.downloads[id]? = some Download.returning → s.downloadWG = 0 →
    Trans cfg (Action.downloadDone id) s { s with panicked := true }
  | downloadDone (s : PState) (id : Nat) :
    s.downloads[id]? = some Download.returning → s.downloadWG ≠ 0 →
    Trans cfg (Action.downloadDone id) s { s with
      downloadWG := s.downloadWG - 1
      downloads := s.downloads.set id Download.finished }
  | waitReturns (s : PState) :
    s.coordinator = Coordinator.waiting → s.downloadWG = 0 →
    Trans cfg Action.waitReturns s { s with coordinator := Coordinator.closing }
  | closeClosed (s : PState) :
    s.coordinator = Coordinator.closing → s.downloadedImage.closed = true →
    Trans cfg Action.close s { s with panicked := true }
  | close (s : PState) :
    s.coordinator = Coordinator.closing → s.downloadedImage.closed = false →
    Trans cfg Action.close s { s with
      downloadedImage := { s.downloadedImage with closed := true }
      coordinator := Coordinator.finished }
  | receive (s : PState) (w : Nat) (image : GoString) (rest : List GoString) :
    s.workers[w]? = some Worker.receiving → s.downloadedImage.buf = image :: rest →
    Trans cfg (Action.receive w) s { s with
      downloadedImage := { s.downloadedImage with buf := rest }
      workers := s.workers.set w (Worker.processing image) }
  | processFails (s : PState) (w : Nat) (image : GoString) (err : GoError) :
    s.workers[w]? = some (Worker.processing image) → cfg.convertResult image = some err →
    Trans cfg (Action.process w) s { s with
      world :=
        { log := s.world.log ++
            [LogEntry.processing image (outputImagePath image cfg.outputDirPath)] ++
            [LogEntry.conversionError err]
          ext := s.world.ext }
      workers := s.workers.set w Worker.receiving }
  | processOk (s : PState) (w : Nat) (image : GoString) :
    s.workers[w]? = some (Worker.processing image) → cfg.convertResult image = none →
    Trans cfg (Action.process w) s { s with
      world :=
        { log := s.world.log ++
            [LogEntry.processing image (outputImagePath image cfg.outputDirPath)]
          ext := s.world.ext ++ [outputImagePath image cfg.outputDirPath] }
      workers := s.workers.set w Worker.receiving }
  | workerDoneNegative (s : PState) (w : Nat) :
    s.workers[w]? = some Worker.receiving → s.downloadedImage.closed = true → s.downloadedImage.buf = [] →
    s.processWG = 0 →
    Trans cfg (Action.workerDone w) s { s with panicked := true }
  | workerDone (s : PState) (w : Nat) :
    s.workers[w]? = some Worker.receiving → s.downloadedImage.closed = true → s.downloadedImage.buf = [] →
    s.processWG ≠ 0 →
    Trans cfg (Action.workerDone w) s { s with
      processWG := s.processWG - 1
      workers := s.workers.set w Worker.finished }

/-- A download task whose deferred `downloadWG.Done()` is still to come. -/
def Download.pending : Download → Bool
  | Download.fetching => true
  | Download.sending => true
  | Download.returning => true
  | _ => false

/-- The number of download tasks that `main` has started. -/
def spawnedDownloads (cfg : Cfg) : MainPc → Nat
  | MainPc.spawnDownloads id => id
  | _ => cfg.imageLinks.length

/-- The number of workers that `main` has started. -/
def spawnedWorkers (cfg : Cfg) : MainPc → Nat
  | MainPc.spawnDownloads _ => 0
  | MainPc.addWorkers => 0
  | MainPc.spawnWorkers process => process - 1
  | _ => cfg.numCPU

/-- What `main` has added to `processWG`. -/
def addedWorkers (cfg : Cfg) : MainPc → Nat
  | MainPc.spawnDownloads _ => 0
  | MainPc.addWorkers => 0
  | _ => cfg.numCPU

/-- The invariant of the control state of the pipeline. -/
structure Inv (cfg : Cfg) (s : PState) : Prop where
  notPanicked : s.panicked = false
  len : s.downloads.length = cfg.imageLinks.length
  spawnedLe : spawnedDownloads cfg s.pc ≤ cfg.imageLinks.length
  absent_iff : ∀ j, s.downloads[j]? = some Download.absent ↔
    (spawnedDownloads cfg s.pc ≤ j ∧ j < cfg.imageLinks.length)
  wg : s.downloadWG = s.downloads.countP Download.pending
  coordAbsent : s.coordinator = Coordinator.absent ↔ ∃ id, s.pc = MainPc.spawnDownloads id
  coordDone : s.coordinator = Coordinator.closing ∨ s.coordinator = Coordinator.finished →
    ∀ d ∈ s.downloads, d = Download.finished
  closed_iff : s.downloadedImage.closed = true ↔ s.coordinator = Coordinator.finished
  cap : s.downloadedImage.cap = 0
  buf : s.downloadedImage.buf = []
  workersLen : s.workers.length = spawnedWorkers cfg s.pc
  loopBound : ∀ p, s.pc = MainPc.spawnWorkers p → 1 ≤ p ∧ p ≤ cfg.numCPU + 1
  pwg : s.processWG + s.workers.countP (fun w => decide (w = Worker.finished))
    = addedWorkers cfg s.pc
  finishedClosed : Worker.finished ∈ s.workers → s.downloadedImage.closed = true
  returnedWG : s.pc = MainPc.returned → s.processWG = 0

/-- The inputs of the `processing` lines of the log, in order. -/
def processedImages (log : List LogEntry) : List GoString :=
  log.filterMap fun e =>
    match e with
    | LogEntry.processing image _ => some image
    | _ => none

/-- The errors of the download tasks in the log, in order. -/
def downloadErrors (log : List LogEntry) : List GoError :=
  log.filterMap fun e =>
    match e with
    | LogEntry.downloadError err => some err
    | _ => none

/-- The errors of the conversions in the log, in order. -/
def conversionErrors (log : List LogEntry) : List GoError :=
  log.filterMap fun e =>
    match e with
    | LogEntry.conversionError err => some err
    | _ => none

/-- The images that the workers are converting. -/
def busyImages (workers : List Worker) : List GoString :=
  workers.filterMap fun w =>
    match w with
    | Worker.processing image => some image
    | _ => none

/-- The handle that the download task `id` in state `d` has handed over, if any. -/
def sentOf (cfg : Cfg) (d : Option Download) (id : Nat) : Option GoString :=
  match d with
  | some Download.returning => if cfg.downloadResult id = none then some (stagedImage id) else none
  | some Download.finished => if cfg.downloadResult id = none then some (stagedImage id) else none
  | _ => none

/-- The error that the download task `id` in state `d` has logged, if any. -/
def errorOf (cfg : Cfg) (d : Option Download) (id : Nat) : Option GoError :=
  match d with
  | some Download.sending => cfg.downloadResult id
  | some Download.returning => cfg.downloadResult id
  | some Download.finished => cfg.downloadResult id
  | _ => none

/-- The file that the download task `id` in state `d` has created, if any. -/
def createdOf (cfg : Cfg) (d : Option Download) (id : Nat) : Option GoString :=
  match d, cfg.imageLinks[id]? with
  | some Download.sending, some link =>
    if cfg.httpGet id link = none ∧ cfg.osCreate (stagedImage id) = none then some (stagedImage id)
    else none
  | some Download.returning, some link =>
    if cfg.httpGet id link = none ∧ cfg.osCreate (stagedImage id) = none then some (stagedImage id)
    else none
  | some Download.finished, some link =>
    if cfg.httpGet id link = none ∧ cfg.osCreate (stagedImage id) = none then some (stagedImage id)
    else none
  | _, _ => none

/-- The output file that a successful conversion of `image` writes, if the
conversion succeeds. -/
def writtenOf (cfg : Cfg) (image : GoString) : Option GoString :=
  if cfg.convertResult image = none then some (outputImagePath image cfg.outputDirPath) else none

/-- The invariant that ties the log, the files and the handles in flight to the
states of the download tasks. -/
structure DInv (cfg : Cfg) (s : PState) : Prop where
  sendingOk : ∀ id, s.downloads[id]? = some Download.sending → cfg.downloadResult id = none
  images : (busyImages s.workers ++ s.downloadedImage.buf ++ processedImages s.world.log).Perm
    ((List.range cfg.imageLinks.length).filterMap fun id => sentOf cfg s.downloads[id]? id)
  dlErrors : (downloadErrors s.world.log).Perm
    ((List.range cfg.imageLinks.length).filterMap fun id => errorOf cfg s.downloads[id]? id)
  staged : s.created.Perm
    ((List.range cfg.imageLinks.length).filterMap fun id => createdOf cfg s.downloads[id]? id)
  written : s.world.ext = (processedImages s.world.log).filterMap (writtenOf cfg)
  convErrors : conversionErrors s.world.log
    = (processedImages s.world.log).filterMap cfg.convertResult
  logKinds : ∀ e ∈ s.world.log, e ≠ LogEntry.usage ∧ ∀ err, e ≠ LogEntry.csvError err

/-- The weight of the position of `main` in the measure of a state. -/
def MainPc.weight (cfg : Cfg) : MainPc → Nat
  | MainPc.spawnDownloads id => 6 + 3 * cfg.numCPU + 7 * (cfg.imageLinks.length - id)
  | MainPc.addWorkers => 3 + 3 * cfg.numCPU
  | MainPc.spawnWorkers process => 2 + 3 * (cfg.numCPU + 1 - process)
  | MainPc.waitWorkers => 1
  | MainPc.returned => 0

/-- The weight of a download task. -/
def Download.weight : Download → Nat
  | Download.absent => 7
  | Download.fetching => 6
  | Download.sending => 5
  | Download.returning => 1
  | Download.finished => 0

/-- The weight of the coordinator. -/
def Coordinator.weight : Coordinator → Nat
  | Coordinator.absent => 3
  | Coordinator.waiting => 2
  | Coordinator.closing => 1
  | Coordinator.finished => 0

/-- The weight of a worker. -/
def Worker.weight : Worker → Nat
  | Worker.receiving => 1
  | Worker.processing _ => 3
  | Worker.finished => 0

/-- A bound on the number of steps that can still be taken from a state. -/
def PState.measure (cfg : Cfg) (s : PState) : Nat :=
  s.pc.weight cfg + (s.downloads.map Download.weight).sum + s.coordinator.weight
    + (s.workers.map Worker.weight).sum + 3 * s.downloadedImage.buf.length
    + (if s.panicked = true then 0 else 1)

/-- The output file that position `id` contributes to a run: the path
`Join(outputDir, "image<id>-grayscaled.jpg")` when the download and the conversion
both succeed. -/
def expectedOutput (cfg : Cfg) (id : Nat) : Option GoString :=
  if cfg.downloadResult id = none ∧ cfg.convertResult (stagedImage id) = none then
    some (Join [cfg.outputDirPath, grayscaledName id])
  else none

/-- The conversion error that position `id` contributes to a run. -/
def expectedConversionError (cfg : Cfg) (id : Nat) : Option GoError :=
  if cfg.downloadResult id = none then cfg.convertResult (stagedImage id) else none

/-- What holds when `main` has returned. -/
structure Completed (cfg : Cfg) (s : PState) : Prop where
  downloads : ∀ id, id < cfg.imageLinks.length → s.downloads[id]? = some Download.finished
  workers : ∀ w ∈ s.workers, w = Worker.finished
  closed : s.downloadedImage.closed = true
  outputs : s.world.ext.Perm ((List.range cfg.imageLinks.length).filterMap (expectedOutput cfg))
  dlErrors : (downloadErrors s.world.log).Perm
    ((List.range cfg.imageLinks.length).filterMap cfg.downloadResult)
  convErrors : (conversionErrors s.world.log).Perm
    ((List.range cfg.imageLinks.length).filterMap (expectedConversionError cfg))
  processed : (processedImages s.world.log).Perm
    ((List.range cfg.imageLinks.length).filterMap fun id =>
      if cfg.downloadResult id = none then some (stagedImage id) else none)

/-- Two links, one CPU, the download of position 1 fails, everything else succeeds. -/
def exampleCfg : Cfg where
  imageLinks := ["http://example.org/a.jpg".toList, "http://example.org/b.jpg".toList]
  outputDirPath := "out".toList
  numCPU := 1
  httpGet := fun id _ => if id = 1 then some { message := "connection refused".toList } else none
  osCreate := fun _ => none
  ioCopy := fun _ => none
  convert := fun _ => none

/-- A complete run of `exampleCfg`. -/
def exampleRun : List Action :=
  [Action.main, Action.main, Action.main, Action.main, Action.main, Action.main,
    Action.download 0, Action.download 1, Action.handOff 0 0, Action.downloadDone 0,
    Action.downloadDone 1, Action.waitReturns, Action.close, Action.process 0,
    Action.workerDone 0, Action.main]

/-- Two links, one CPU, nothing fails. -/
def busyCfg : Cfg where
  imageLinks := ["http://example.org/a.jpg".toList, "http://example.org/b.jpg".toList]
  outputDirPath := "out".toList
  numCPU := 1
  httpGet := fun _ _ => none
  osCreate := fun _ => none
  ioCopy := fun _ => none
  convert := fun _ => none

/-- A run of `busyCfg` after which the only worker is converting the image of
position 0 while the download task of position 1 stands at its send. -/
def busyRun : List Action :=
  [Action.main, Action.main, Action.main, Action.main, Action.main, Action.main,
    Action.download 0, Action.download 1, Action.handOff 0 0]

/-- The state after `exampleRun`. -/
def exampleFinal : PState :=
  (exec exampleCfg exampleRun (PState.init exampleCfg)).getD (PState.init exampleCfg)

/-- The state after `busyRun`. -/
def busyState : PState :=
  (exec busyCfg busyRun (PState.init busyCfg)).getD (PState.init busyCfg)

/-- Whether a worker is inside a call of `ProcessImage`. -/
def Worker.inFlight : Worker → Bool
  | Worker.processing _ => true
  | _ => false

/-! ## Theorems -/

/-! ## Facts about the path helpers -/

theorem cleanLoop_nil (r m : Bool) (st : CleanState) : cleanLoop r m [] st = st := by
  cases m <;> simp [cleanLoop]

theorem cleanLoop_copy (r : Bool) (e : GoString) :
    ∀ st : CleanState, '/' ∉ e → cleanLoop r true e st = { st with out := st.out ++ e } := by
  induction e with
  | nil => intro st _; simp [cleanLoop]
  | cons c e ih =>
    intro st h
    have hc : c ≠ '/' := fun hc => h (by simp [hc])
    have he : '/' ∉ e := fun he => h (by simp [he])
    simp [cleanLoop, hc, ih _ he]

theorem cleanLoop_sep (r m : Bool) (rest : GoString) (st : CleanState) :
    cleanLoop r m ('/' :: rest) st = cleanLoop r false rest st := by
  cases m
  · cases rest <;> simp [cleanLoop]
  · simp [cleanLoop]

theorem atElemEnd_append_sep (q rest : GoString) :
    atElemEnd (q ++ '/' :: rest) = atElemEnd q := by
  cases q <;> simp [atElemEnd]

theorem cleanLoop_true_cons (r : Bool) (c : Char) (rest : GoString) (st : CleanState) :
    cleanLoop r true (c :: rest) st =
      if c = '/' then cleanLoop r false rest st
      else cleanLoop r true rest { st with out := st.out ++ [c] } := rfl

theorem cleanLoop_false_cons (r : Bool) (c d : Char) (rest : GoString) (st : CleanState) :
    cleanLoop r false (c :: d :: rest) st =
      if c = '/' then cleanLoop r false (d :: rest) st
      else if c = '.' ∧ d = '/' then cleanLoop r false (d :: rest) st
      else if c = '.' ∧ d = '.' ∧ atElemEnd rest = true then
        cleanLoop r false rest (cleanDotDot r st)
      else cleanLoop r true (d :: rest)
        { cleanAddSep r st with out := (cleanAddSep r st).out ++ [c] } := rfl

theorem cleanLoop_append_sep (r : Bool) :
    ∀ (n : Nat) (q : GoString), q.length ≤ n → ∀ (m : Bool) (st : CleanState) (rest : GoString),
      cleanLoop r m (q ++ '/' :: rest) st = cleanLoop r false rest (cleanLoop r m q st) := by
  intro n
  induction n with
  | zero =>
    intro q hq m st rest
    have : q = [] := List.length_eq_zero.mp (Nat.le_zero.mp hq)
    subst this
    simp [cleanLoop_sep, cleanLoop_nil]
  | succ n ih =>
    intro q hq m st rest
    match q, m with
    | [], m => simp [cleanLoop_sep, cleanLoop_nil]
    | c :: q, true =>
      have hq1 : q.length ≤ n := by simpa using hq
      rw [List.cons_append, cleanLoop_true_cons, cleanLoop_true_cons]
      by_cases hc : c = '/'
      · simp only [hc, if_true, ih q hq1]
      · simp only [hc, if_false, ih q hq1]
    | [c], false =>
      by_cases hc : c = '/'
      · simp [cleanLoop, hc, cleanLoop_sep]
      · by_cases hd : c = '.'
        · simp [cleanLoop, hd, cleanLoop_sep]
        · simp [cleanLoop, hc, hd, cleanLoop_sep]
    | c :: d :: q, false =>
      have hq1 : (d :: q).length ≤ n := by simpa using hq
      have hq2 : q.length ≤ n := by simp at hq; omega
      have h1 := ih (d :: q) hq1
      have h2 := ih q hq2
      simp only [List.cons_append] at h1 ⊢
      rw [cleanLoop_false_cons, cleanLoop_false_cons, atElemEnd_append_sep]
      by_cases hc : c = '/'
      · simp only [hc, if_true, h1]
      · by_cases h3 : c = '.' ∧ d = '/'
        · rw [if_neg hc, if_neg hc, if_pos h3, if_pos h3, h1]
        · by_cases h4 : c = '.' ∧ d = '.' ∧ atElemEnd q = true
          · rw [if_neg hc, if_neg hc, if_neg h3, if_neg h3, if_pos h4, if_pos h4, h2]
          · rw [if_neg hc, if_neg hc, if_neg h3, if_neg h3, if_neg h4, if_neg h4, h1]

theorem cleanLoop_realElem (r : Bool) (e : GoString) (st : CleanState) (he : RealElem e) :
    cleanLoop r false e st =
      { out := (cleanAddSep r st).out ++ e, dotdot := (cleanAddSep r st).dotdot } := by
  obtain ⟨h0, hs, h1, h2⟩ := he
  match e with
  | [] => exact absurd rfl h0
  | [c] =>
    have hc : c ≠ '/' := fun hc => hs (by simp [hc])
    have hd : c ≠ '.' := fun hd => h1 (by simp [hd])
    simp [cleanLoop, hc, hd]
  | c :: d :: rest =>
    have hc : c ≠ '/' := fun hc => hs (by simp [hc])
    have hd : d ≠ '/' := fun hd => hs (by simp [hd])
    have hrest : '/' ∉ d :: rest := fun h => hs (by simp at h ⊢; tauto)
    have h4 : ¬ (c = '.' ∧ d = '.' ∧ atElemEnd rest = true) := by
      rintro ⟨rfl, rfl, h⟩
      cases rest with
      | nil => exact h2 rfl
      | cons x rest =>
        simp [atElemEnd] at h
        exact hs (by simp [h])
    rw [cleanLoop_false_cons]
    simp only [hc, hd, h4, and_false, if_false]
    rw [cleanLoop_copy r _ _ hrest]
    simp

/-! ### The buffer of a rooted path always starts with the separator -/

theorem backtrack_suffix (d : Nat) : ∀ l : GoString, backtrack d l <:+ l := by
  intro l
  induction l with
  | nil => simp [backtrack]
  | cons c l ih =>
    rw [backtrack]
    split
    · exact ih.trans (List.suffix_cons c l)
    · exact List.suffix_cons c l

theorem backtrack_length (d : Nat) :
    ∀ l : GoString, d < l.length → d ≤ (backtrack d l).length := by
  intro l
  induction l with
  | nil => intro h; simp at h
  | cons c l ih =>
    intro h
    rw [backtrack]
    split
    · rename_i hc
      exact ih hc.1
    · simp at h
      omega

theorem rootedInv_backtrack (st : CleanState) (h : RootedInv st) (hlt : st.dotdot < st.out.length) :
    ∃ t, (backtrack st.dotdot st.out.reverse).reverse = '/' :: t := by
  obtain ⟨hd, t, ht⟩ := h
  have hsuf := backtrack_suffix st.dotdot st.out.reverse
  have hlen : st.dotdot ≤ (backtrack st.dotdot st.out.reverse).reverse.length := by
    simpa using backtrack_length st.dotdot st.out.reverse (by simpa using hlt)
  obtain ⟨u, hu⟩ := hsuf
  have h2 : st.out = (backtrack st.dotdot st.out.reverse).reverse ++ u.reverse := by
    have := congrArg List.reverse hu
    simpa using this.symm
  generalize (backtrack st.dotdot st.out.reverse).reverse = b at h2 hlen
  cases b with
  | nil => simp [hd] at hlen
  | cons x b =>
    rw [ht] at h2
    simp at h2
    exact ⟨b, by rw [h2.1]⟩

theorem rootedInv_append (st : CleanState) (h : RootedInv st) (e : GoString) :
    RootedInv { st with out := st.out ++ e } := by
  obtain ⟨hd, t, ht⟩ := h
  exact ⟨hd, t ++ e, by simp [ht]⟩

theorem rootedInv_addSep (st : CleanState) (h : RootedInv st) :
    RootedInv (cleanAddSep true st) := by
  unfold cleanAddSep
  split
  · exact rootedInv_append st h _
  · exact h

theorem rootedInv_dotDot (st : CleanState) (h : RootedInv st) :
    RootedInv (cleanDotDot true st) := by
  unfold cleanDotDot
  split
  · rename_i hlt
    exact ⟨h.1, rootedInv_backtrack st h hlt⟩
  · simp
    exact h

theorem rootedInv_cleanLoop :
    ∀ (n : Nat) (q : GoString), q.length ≤ n → ∀ (m : Bool) (st : CleanState),
      RootedInv st → RootedInv (cleanLoop true m q st) := by
  intro n
  induction n with
  | zero =>
    intro q hq m st h
    have : q = [] := List.length_eq_zero.mp (Nat.le_zero.mp hq)
    subst this
    simpa [cleanLoop_nil] using h
  | succ n ih =>
    intro q hq m st h
    match q, m with
    | [], m => simpa [cleanLoop_nil] using h
    | c :: q, true =>
      have hq1 : q.length ≤ n := by simpa using hq
      rw [cleanLoop_true_cons]
      split
      · exact ih q hq1 _ _ h
      · exact ih q hq1 _ _ (rootedInv_append st h _)
    | [c], false =>
      simp only [cleanLoop]
      split
      · exact h
      · split
        · exact h
        · exact rootedInv_append _ (rootedInv_addSep st h) _
    | c :: d :: q, false =>
      have hq1 : (d :: q).length ≤ n := by simpa using hq
      have hq2 : q.length ≤ n := by simp at hq; omega
      rw [cleanLoop_false_cons]
      split
      · exact ih _ hq1 _ _ h
      · split
        · exact ih _ hq1 _ _ h
        · split
          · exact ih _ hq2 _ _ (rootedInv_dotDot st h)
          · exact ih _ hq1 _ _ (rootedInv_append _ (rootedInv_addSep st h) _)

theorem realElem_ne_nil {e : GoString} (he : RealElem e) : e ≠ [] := he.1

theorem realElem_head {e : GoString} (he : RealElem e) : ∃ c t, e = c :: t ∧ c ≠ '/' := by
  obtain ⟨h0, hs, _, _⟩ := he
  cases e with
  | nil => exact absurd rfl h0
  | cons c t => exact ⟨c, t, rfl, fun hc => hs (by simp [hc])⟩

/-- Cleaning a path whose last element is a real element keeps that element and
puts in front of it a text that depends on the rest of the path only. -/
theorem Clean_append_elem (q e : GoString) (he : RealElem e) :
    Clean (q ++ '/' :: e) = cleanHead q ++ e := by
  have hne : e ≠ [] := he.1
  cases q with
  | nil =>
    simp only [List.nil_append, Clean, cleanHead, if_true]
    rw [cleanLoop_realElem true e _ he]
    simp [cleanAddSep, hne]
  | cons c q =>
    by_cases hc : c = '/'
    · simp only [List.cons_append, Clean, cleanHead, hc, if_true]
      rw [cleanLoop_append_sep true _ q le_rfl, cleanLoop_realElem true e _ he]
      simp [hne]
    · simp only [List.cons_append, Clean, cleanHead, hc, if_false]
      have := cleanLoop_append_sep false _ (c :: q) le_rfl false { out := [], dotdot := 0 } e
      rw [List.cons_append] at this
      rw [this, cleanLoop_realElem false e _ he]
      simp [hne]

/-- A real element alone is already clean. -/
theorem Clean_realElem (e : GoString) (he : RealElem e) : Clean e = e := by
  obtain ⟨c, t, rfl, hc⟩ := realElem_head he
  simp only [Clean, hc, if_false]
  rw [cleanLoop_realElem false _ _ he]
  simp [cleanAddSep]

/-- The text in front of the last element is empty or ends with the separator. -/
theorem cleanHead_ends (q : GoString) : cleanHead q = [] ∨ ∃ t, cleanHead q = t ++ ['/'] := by
  cases q with
  | nil => exact Or.inr ⟨[], rfl⟩
  | cons c q =>
    by_cases hc : c = '/'
    · simp only [cleanHead, hc, if_true]
      have hinv := rootedInv_cleanLoop _ q le_rfl false { out := ['/'], dotdot := 1 } ⟨rfl, [], rfl⟩
      generalize cleanLoop true false q { out := ['/'], dotdot := 1 } = st at hinv
      unfold cleanAddSep
      split
      · exact Or.inr ⟨st.out, rfl⟩
      · rename_i hno
        obtain ⟨_, t, ht⟩ := hinv
        simp only [true_and, Bool.true_eq_false, false_and, or_false, ne_eq, not_not] at hno
        rw [ht] at hno ⊢
        simp at hno
        subst hno
        exact Or.inr ⟨[], rfl⟩
    · simp only [cleanHead, hc, if_false]
      generalize cleanLoop false false (c :: q) { out := [], dotdot := 0 } = st
      unfold cleanAddSep
      split
      · exact Or.inr ⟨st.out, rfl⟩
      · rename_i hno
        simp at hno
        exact Or.inl hno

/-! ### `filepath.Ext`, `filepath.Base`, `strings.TrimSuffix` -/

theorem extScan_skip (r : GoString) (hr : ∀ c ∈ r, Plain c) :
    ∀ (b a : GoString), extScan (r ++ b) a = extScan b (r.reverse ++ a) := by
  induction r with
  | nil => intro b a; rfl
  | cons c r ih =>
    intro b a
    have hc : Plain c := hr c (by simp)
    have hr1 : ∀ x ∈ r, Plain x := fun x hx => hr x (by simp [hx])
    rw [List.cons_append, extScan, if_neg hc.1, if_neg hc.2, ih hr1]
    simp

theorem Ext_append_plain (x e : GoString) (he : ∀ c ∈ e, Plain c) :
    Ext (x ++ e) = extScan x.reverse e := by
  unfold Ext
  rw [List.reverse_append, extScan_skip e.reverse (by simpa using he)]
  simp

theorem Ext_append_dot (x t : GoString) (ht : ∀ c ∈ t, Plain c) :
    Ext (x ++ '.' :: t) = '.' :: t := by
  have : x ++ '.' :: t = (x ++ ['.']) ++ t := by simp
  rw [this, Ext_append_plain _ _ ht]
  simp [extScan]

theorem extScan_suffix : ∀ (b a : GoString), extScan b a <:+ b.reverse ++ a := by
  intro b
  induction b with
  | nil => intro a; simp [extScan]
  | cons c b ih =>
    intro a
    rw [extScan]
    split
    · exact List.nil_suffix
    · split
      · simp only [List.reverse_cons, List.append_assoc, List.singleton_append]
        exact List.suffix_append _ _
      · have := ih (c :: a)
        simpa using this

theorem Ext_suffix (p : GoString) : Ext p <:+ p := by
  have := extScan_suffix p.reverse []
  simpa [Ext] using this

theorem extScan_shape : ∀ (b a : GoString), (∀ c ∈ a, Plain c) →
    extScan b a = [] ∨ ∃ t, extScan b a = '.' :: t ∧ ∀ c ∈ t, Plain c := by
  intro b
  induction b with
  | nil => intro a _; exact Or.inl rfl
  | cons c b ih =>
    intro a ha
    rw [extScan]
    split
    · exact Or.inl rfl
    · split
      · rename_i h1 h2
        exact Or.inr ⟨a, by rw [h2], ha⟩
      · rename_i h1 h2
        exact ih (c :: a) (by
          intro x hx
          rcases List.mem_cons.mp hx with rfl | hx
          · exact ⟨h1, h2⟩
          · exact ha x hx)

theorem Ext_shape (p : GoString) : Ext p = [] ∨ ∃ t, Ext p = '.' :: t ∧ ∀ c ∈ t, Plain c :=
  extScan_shape p.reverse [] (by simp)

theorem extScan_nil_noDot : ∀ (b a : GoString), '/' ∉ b → extScan b a = [] → '.' ∉ b := by
  intro b
  induction b with
  | nil => intro a _ _; simp
  | cons c b ih =>
    intro a hs h
    have hc : c ≠ '/' := fun hc => hs (by simp [hc])
    have hb : '/' ∉ b := fun hb => hs (by simp [hb])
    rw [extScan, if_neg hc] at h
    by_cases hd : c = '.'
    · simp [hd] at h
    · rw [if_neg hd] at h
      have := ih _ hb h
      intro hmem
      rcases List.mem_cons.mp hmem with h1 | h1
      · exact hd h1.symm
      · exact this h1

theorem Ext_nil_noDot (p : GoString) (hs : '/' ∉ p) (h : Ext p = []) : '.' ∉ p := by
  have := extScan_nil_noDot p.reverse [] (by simpa using hs) h
  simpa using this

theorem TrimSuffix_append (s suffix : GoString) (h : suffix <:+ s) :
    TrimSuffix s suffix ++ suffix = s := by
  obtain ⟨p, rfl⟩ := h
  simp [TrimSuffix, HasSuffix]

theorem TrimSuffix_nil (s : GoString) : TrimSuffix s [] = s := by
  simp [TrimSuffix, HasSuffix]

/-- The base name is the separator alone or contains no separator. -/
theorem Base_shape (p : GoString) : Base p = ['/'] ∨ (Base p ≠ [] ∧ '/' ∉ Base p) := by
  unfold Base
  split
  · right; simp
  · simp only
    split
    · left; rfl
    · rename_i h
      right
      refine ⟨h, ?_⟩
      intro hmem
      rw [List.mem_reverse] at hmem
      have := List.mem_takeWhile_imp hmem
      simp at this

/-! ### Decimal rendering -/

theorem decimalDigit_plain (d : Nat) (h : d < 10) : Plain (decimalDigit d) := by
  unfold Plain decimalDigit
  interval_cases d <;> decide

theorem digitValue_decimalDigit (d : Nat) (h : d < 10) : digitValue (decimalDigit d) = d := by
  unfold digitValue decimalDigit
  interval_cases d <;> decide

theorem formatBits_plain : ∀ (fuel us : Nat) (acc : GoString),
    (∀ c ∈ acc, Plain c) → ∀ c ∈ formatBits fuel us acc, Plain c := by
  intro fuel
  induction fuel with
  | zero => intro us acc h; simpa [formatBits] using h
  | succ fuel ih =>
    intro us acc h
    rw [formatBits]
    split
    · rename_i hlt
      intro c hc
      rcases List.mem_cons.mp hc with rfl | hc
      · exact decimalDigit_plain us hlt
      · exact h c hc
    · apply ih
      intro c hc
      rcases List.mem_cons.mp hc with rfl | hc
      · exact decimalDigit_plain _ (Nat.mod_lt _ (by norm_num))
      · exact h c hc

theorem Itoa_plain (n : Nat) : ∀ c ∈ Itoa n, Plain c :=
  formatBits_plain _ _ [] (by simp)

theorem parseDecimal_formatBits : ∀ (fuel us : Nat) (acc : GoString), us < fuel →
    parseDecimal 0 (formatBits fuel us acc) = parseDecimal us acc := by
  intro fuel
  induction fuel with
  | zero => intro us acc h; omega
  | succ fuel ih =>
    intro us acc h
    rw [formatBits]
    split
    · rename_i hlt
      simp [parseDecimal, digitValue_decimalDigit us hlt]
    · rename_i hge
      rw [ih _ _ (by omega)]
      simp only [parseDecimal, List.foldl_cons]
      rw [digitValue_decimalDigit _ (Nat.mod_lt _ (by norm_num))]
      congr 1
      omega

/-- Reading the decimal rendering of `n` gives `n` back. -/
theorem parseDecimal_Itoa (n : Nat) : parseDecimal 0 (Itoa n) = n := by
  unfold Itoa
  rw [parseDecimal_formatBits _ _ _ (Nat.lt_succ_self n)]
  rfl

theorem Itoa_injective : Function.Injective Itoa := by
  intro i j h
  have := congrArg (parseDecimal 0) h
  simpa [parseDecimal_Itoa] using this

/-! ### Staging file names and output paths -/

theorem Join_pair (d e : GoString) (he : e ≠ []) :
    Join [d, e] = if d = [] then Clean e else Clean (d ++ '/' :: e) := by
  by_cases hd : d = []
  · simp [Join, hd, he, stringsJoin, List.intercalate]
  · simp [Join, hd, stringsJoin, List.intercalate]

theorem Join_realElem (d e : GoString) (he : RealElem e) : Join [d, e] = joinHead d ++ e := by
  rw [Join_pair d e he.1]
  unfold joinHead
  split
  · simp [Clean_realElem e he]
  · exact Clean_append_elem d e he

theorem joinHead_ends (d : GoString) : joinHead d = [] ∨ ∃ t, joinHead d = t ++ ['/'] := by
  unfold joinHead
  split
  · exact Or.inl rfl
  · exact cleanHead_ends d

theorem Base_append_elem (x e : GoString) (h0 : e ≠ []) (hs : '/' ∉ e) :
    Base (x ++ '/' :: e) = e := by
  obtain ⟨c, r, hr⟩ : ∃ c r, e.reverse = c :: r := by
    cases h : e.reverse with
    | nil => simp at h; exact absurd h h0
    | cons c r => exact ⟨c, r, rfl⟩
  have hc : c ≠ '/' := by
    intro hc
    apply hs
    have : c ∈ e.reverse := by rw [hr]; simp
    rw [← hc]
    simpa using this
  have hrs : ∀ a ∈ e.reverse, (fun c => decide (c ≠ '/')) a = true := by
    intro a ha
    simp only [decide_eq_true_eq]
    intro h
    exact hs (by rw [← h]; simpa using ha)
  have hrev : (x ++ '/' :: e).reverse = e.reverse ++ '/' :: x.reverse := by simp
  unfold Base
  rw [if_neg (by simp)]
  simp only [List.reverse_reverse]
  have hdrop : List.dropWhile (fun c => decide (c = '/')) (x ++ '/' :: e).reverse
      = (x ++ '/' :: e).reverse := by
    rw [hrev, hr]
    simp [List.dropWhile, hc]
  rw [hdrop, hrev, List.takeWhile_append_of_pos hrs]
  simp [List.takeWhile, h0]

theorem Base_elem (e : GoString) (h0 : e ≠ []) (hs : '/' ∉ e) : Base e = e := by
  obtain ⟨c, r, hr⟩ : ∃ c r, e.reverse = c :: r := by
    cases h : e.reverse with
    | nil => simp at h; exact absurd h h0
    | cons c r => exact ⟨c, r, rfl⟩
  have hc : c ≠ '/' := by
    intro hc
    apply hs
    have : c ∈ e.reverse := by rw [hr]; simp
    rw [← hc]
    simpa using this
  have hrs : ∀ a ∈ e.reverse, (fun c => decide (c ≠ '/')) a = true := by
    intro a ha
    simp only [decide_eq_true_eq]
    intro h
    exact hs (by rw [← h]; simpa using ha)
  unfold Base
  rw [if_neg h0]
  simp only [List.reverse_reverse]
  have hdrop : List.dropWhile (fun c => decide (c = '/')) e.reverse = e.reverse := by
    rw [hr]
    simp [List.dropWhile, hc]
  rw [hdrop]
  have : List.takeWhile (fun c => decide (c ≠ '/')) e.reverse = e.reverse := by
    rw [List.takeWhile_eq_self_iff]
    exact hrs
  rw [this]
  simp [h0]

theorem imageFilename_noSep (id : Nat) : '/' ∉ imageFilename id := by
  unfold imageFilename
  intro h
  simp only [List.mem_append] at h
  rcases h with (h | h) | h
  · revert h; decide
  · exact (Itoa_plain id _ h).1 rfl
  · revert h; decide

theorem imageFilename_realElem (id : Nat) : RealElem (imageFilename id) := by
  refine ⟨?_, imageFilename_noSep id, ?_, ?_⟩ <;> simp [imageFilename]

theorem imageFilename_injective : Function.Injective imageFilename := by
  intro i j h
  unfold imageFilename at h
  have h1 := List.append_cancel_right h
  exact Itoa_injective (List.append_cancel_left h1)

/-- The staged handle is `inputs/image<id>.jpg`. -/
theorem stagedImage_eq (id : Nat) :
    stagedImage id = "inputs/".toList ++ imageFilename id := by
  unfold stagedImage
  rw [Join_realElem _ _ (imageFilename_realElem id)]
  rfl

theorem stagedImage_injective : Function.Injective stagedImage := by
  intro i j h
  rw [stagedImage_eq, stagedImage_eq] at h
  exact imageFilename_injective (List.append_cancel_left h)

theorem Base_stagedImage (id : Nat) : Base (stagedImage id) = imageFilename id := by
  rw [stagedImage_eq]
  have : "inputs/".toList ++ imageFilename id = "inputs".toList ++ '/' :: imageFilename id := by
    simp
  rw [this]
  exact Base_append_elem _ _ (imageFilename_realElem id).1 (imageFilename_noSep id)

theorem Ext_imageFilename (id : Nat) : Ext (imageFilename id) = ".jpg".toList := by
  have : imageFilename id = ("image".toList ++ Itoa id) ++ '.' :: "jpg".toList := by
    simp [imageFilename]
  rw [this, Ext_append_dot _ _ (by decide)]
  rfl

theorem grayscaledName_realElem (id : Nat) : RealElem (grayscaledName id) := by
  refine ⟨?_, ?_, ?_, ?_⟩
  · simp [grayscaledName]
  · unfold grayscaledName
    intro h
    simp only [List.mem_append] at h
    rcases h with (h | h) | h
    · revert h; decide
    · exact (Itoa_plain id _ h).1 rfl
    · revert h; decide
  · simp [grayscaledName]
  · simp [grayscaledName]

theorem grayscaledName_injective : Function.Injective grayscaledName := by
  intro i j h
  unfold grayscaledName at h
  have h1 := List.append_cancel_right h
  exact Itoa_injective (List.append_cancel_left h1)

/-- The output path of the staged handle of position `id` is
`Join(outputDir, "image<id>-grayscaled.jpg")`. -/
theorem outputImagePath_stagedImage (id : Nat) (outputDirPath : GoString) :
    outputImagePath (stagedImage id) outputDirPath = Join [outputDirPath, grayscaledName id] := by
  unfold outputImagePath
  simp only [Base_stagedImage, Ext_imageFilename]
  have hsuf : ".jpg".toList <:+ imageFilename id := ⟨"image".toList ++ Itoa id, by simp [imageFilename]⟩
  have h := TrimSuffix_append _ _ hsuf
  have h2 : TrimSuffix (imageFilename id) ".jpg".toList = "image".toList ++ Itoa id := by
    have h3 : TrimSuffix (imageFilename id) ".jpg".toList ++ ".jpg".toList
        = ("image".toList ++ Itoa id) ++ ".jpg".toList := by
      rw [h]
      simp [imageFilename]
    exact List.append_cancel_right h3
  rw [h2]
  simp [grayscaledName]

theorem outputImagePath_stagedImage_eq (id : Nat) (outputDirPath : GoString) :
    outputImagePath (stagedImage id) outputDirPath = joinHead outputDirPath ++ grayscaledName id := by
  rw [outputImagePath_stagedImage, Join_realElem _ _ (grayscaledName_realElem id)]

theorem grayscaled_plain : ∀ c ∈ "-grayscaled".toList, Plain c := by decide

theorem grayscaled_realElem : RealElem "-grayscaled".toList := by
  refine ⟨by decide, by decide, by decide, by decide⟩

/-- The last path element built by `ProcessImage` is a real element as soon as the
base name holds no separator. -/
theorem outputElem_realElem (name ext : GoString) (hn : '/' ∉ name) (he : '/' ∉ ext) :
    RealElem (name ++ "-grayscaled".toList ++ ext) := by
  refine ⟨by simp, ?_, ?_, ?_⟩
  · intro h
    simp only [List.mem_append] at h
    rcases h with (h | h) | h
    · exact hn h
    · revert h; decide
    · exact he h
  · intro h
    have := congrArg List.length h
    simp at this
    omega
  · intro h
    have := congrArg List.length h
    simp at this
    omega

theorem noSep_of_append {a b : GoString} (h : '/' ∉ a ++ b) : '/' ∉ a ∧ '/' ∉ b := by
  simp only [List.mem_append, not_or] at h
  exact h

/-- The base name splits into the name and the extension. -/
theorem name_append_ext (inputImagePath : GoString) :
    TrimSuffix (Base inputImagePath) (Ext (Base inputImagePath)) ++ Ext (Base inputImagePath)
      = Base inputImagePath :=
  TrimSuffix_append _ _ (Ext_suffix _)

theorem Ext_head_append_plain (d e : GoString) (he : ∀ c ∈ e, Plain c)
    (hd : d = [] ∨ ∃ t, d = t ++ ['/']) : Ext (d ++ e) = [] := by
  rw [Ext_append_plain _ _ he]
  rcases hd with rfl | ⟨t, rfl⟩
  · rfl
  · simp [extScan]

theorem Ext_outputImagePath (inputImagePath outputDirPath : GoString) :
    Ext (outputImagePath inputImagePath outputDirPath) = Ext (Base inputImagePath) := by
  unfold outputImagePath
  simp only
  rcases Base_shape inputImagePath with hb | ⟨hb0, hbs⟩
  · -- the path consists of separators only
    rw [hb]
    have hext : Ext ['/'] = [] := by decide
    rw [hext]
    have htrim : TrimSuffix ['/'] [] = ['/'] := TrimSuffix_nil _
    rw [htrim, Join_pair _ _ (by simp)]
    split
    · have : ['/'] ++ "-grayscaled".toList ++ [] = [] ++ '/' :: "-grayscaled".toList := by simp
      rw [this, Clean_append_elem _ _ grayscaled_realElem]
      exact Ext_head_append_plain _ _ grayscaled_plain (cleanHead_ends _)
    · have : outputDirPath ++ '/' :: (['/'] ++ "-grayscaled".toList ++ [])
          = (outputDirPath ++ ['/']) ++ '/' :: "-grayscaled".toList := by simp
      rw [this, Clean_append_elem _ _ grayscaled_realElem]
      exact Ext_head_append_plain _ _ grayscaled_plain (cleanHead_ends _)
  · have hsplit := name_append_ext inputImagePath
    generalize Base inputImagePath = base at hb0 hbs hsplit
    generalize hname : TrimSuffix base (Ext base) = name at hsplit
    have hns : '/' ∉ name ∧ '/' ∉ Ext base := by
      rw [← hsplit] at hbs
      exact noSep_of_append hbs
    have hreal := outputElem_realElem name (Ext base) hns.1 hns.2
    rw [Join_realElem _ _ hreal]
    rcases Ext_shape base with h0 | ⟨t, ht, hplain⟩
    · -- no extension
      have hnd : '.' ∉ base := Ext_nil_noDot base hbs h0
      rw [h0] at hsplit ⊢
      simp only [List.append_nil] at hsplit ⊢
      subst hsplit
      apply Ext_head_append_plain _ _ _ (joinHead_ends _)
      intro c hc
      rcases List.mem_append.mp hc with hc | hc
      · exact ⟨fun h => hbs (h ▸ hc), fun h => hnd (h ▸ hc)⟩
      · exact grayscaled_plain c hc
    · rw [ht]
      have : joinHead outputDirPath ++ (name ++ "-grayscaled".toList ++ '.' :: t)
          = (joinHead outputDirPath ++ name ++ "-grayscaled".toList) ++ '.' :: t := by simp
      rw [this, Ext_append_dot _ _ hplain]

theorem Base_joinHead_append (d e : GoString) (h0 : e ≠ []) (hs : '/' ∉ e) :
    Base (joinHead d ++ e) = e := by
  rcases joinHead_ends d with h | ⟨t, h⟩
  · rw [h]
    exact Base_elem e h0 hs
  · rw [h]
    have : t ++ ['/'] ++ e = t ++ '/' :: e := by simp
    rw [this]
    exact Base_append_elem t e h0 hs

/-- C1. `ProcessImage` calls the conversion command exactly once, with the unchanged
input path and the output path `Join(outputDir, name + "-grayscaled" + ext)`, where
`base = Base(input)`, `ext = Ext(base)`, `name = TrimSuffix(base, ext)`; `name + ext`
is `base`, and unless `base` is the separator alone the last element of the output
path is `name + "-grayscaled" + ext`. -/
theorem ProcessImage_calls_converter_with_derived_path {τ : Type} (cmd : ConvertImageCommand τ)
    (inputImagePath outputDirPath : GoString) (w : World τ) :
    (ProcessImage { cmd := countingCommand cmd } inputImagePath outputDirPath
        { log := w.log, ext := (w.ext, []) }).2.ext.2
      = [convertArgs inputImagePath
          (Join [outputDirPath,
            TrimSuffix (Base inputImagePath) (Ext (Base inputImagePath)) ++ "-grayscaled".toList
              ++ Ext (Base inputImagePath)])]
    ∧ TrimSuffix (Base inputImagePath) (Ext (Base inputImagePath)) ++ Ext (Base inputImagePath)
      = Base inputImagePath
    ∧ (Base inputImagePath = ['/'] ∨
        Base (Join [outputDirPath,
            TrimSuffix (Base inputImagePath) (Ext (Base inputImagePath)) ++ "-grayscaled".toList
              ++ Ext (Base inputImagePath)])
          = TrimSuffix (Base inputImagePath) (Ext (Base inputImagePath)) ++ "-grayscaled".toList
              ++ Ext (Base inputImagePath)) := by
  refine ⟨rfl, name_append_ext inputImagePath, ?_⟩
  rcases Base_shape inputImagePath with hb | ⟨_, hbs⟩
  · exact Or.inl hb
  · right
    have hsplit := name_append_ext inputImagePath
    have hns := noSep_of_append (hsplit ▸ hbs)
    have hreal := outputElem_realElem _ _ hns.1 hns.2
    rw [Join_realElem _ _ hreal]
    exact Base_joinHead_append _ _ hreal.1 hreal.2.1

/-- C3. `Converter.Grayscale` invokes the command exactly once, with the arguments
`convert <input> -set colorspace Gray <output>`, and returns the error of the command
(nil exactly when the command returned nil); `ProcessImage` returns the error of
`Grayscale` unchanged. -/
theorem Grayscale_invokes_command_once {τ : Type} (cmd : ConvertImageCommand τ)
    (inputFilepath outputFilepath outputDirPath : GoString) (ext : τ) (w : World τ) :
    Converter.Grayscale { cmd := countingCommand cmd } inputFilepath outputFilepath (ext, [])
      = ((cmd (convertArgs inputFilepath outputFilepath) ext).1,
          ((cmd (convertArgs inputFilepath outputFilepath) ext).2,
            [convertArgs inputFilepath outputFilepath]))
    ∧ convertArgs inputFilepath outputFilepath
      = ["convert".toList, inputFilepath, "-set".toList, "colorspace".toList, "Gray".toList,
          outputFilepath]
    ∧ Converter.Grayscale { cmd := cmd } inputFilepath outputFilepath ext
      = cmd (convertArgs inputFilepath outputFilepath) ext
    ∧ ((Converter.Grayscale { cmd := cmd } inputFilepath outputFilepath ext).1 = none
        ↔ (cmd (convertArgs inputFilepath outputFilepath) ext).1 = none)
    ∧ (ProcessImage { cmd := cmd } inputFilepath outputDirPath w).1
      = (Converter.Grayscale { cmd := cmd } inputFilepath
          (outputImagePath inputFilepath outputDirPath) w.ext).1
    ∧ (ProcessImage { cmd := cmd } inputFilepath outputDirPath w).1
      = (cmd (convertArgs inputFilepath (outputImagePath inputFilepath outputDirPath)) w.ext).1 :=
  ⟨rfl, rfl, rfl, Iff.rfl, rfl, rfl⟩

theorem GetImageFromLink_created (env : DownloadEnv) (dir filename link : GoString)
    (created : List GoString) :
    (GetImageFromLink env dir filename link created).2
      = if env.httpGet link = none ∧ env.osCreate (Join [dir, filename]) = none then
          created ++ [Join [dir, filename]]
        else created := by
  unfold GetImageFromLink
  cases hget : env.httpGet link with
  | some e => simp
  | none =>
    cases hcreate : env.osCreate (Join [dir, filename]) with
    | some e => simp [hcreate]
    | none => simp [hcreate]

/-- C9. For every output directory, the output paths that `ProcessImage` derives
from the staged handles of two distinct positions are different. -/
theorem output_paths_distinct (outputDirPath : GoString) (i j : Nat) (h : i ≠ j) :
    outputImagePath (Join ["inputs".toList, imageFilename i]) outputDirPath
      ≠ outputImagePath (Join ["inputs".toList, imageFilename j]) outputDirPath := by
  intro heq
  have h1 := outputImagePath_stagedImage_eq i outputDirPath
  have h2 := outputImagePath_stagedImage_eq j outputDirPath
  unfold stagedImage at h1 h2
  rw [h1, h2] at heq
  exact h (grayscaledName_injective (List.append_cancel_left heq))

/-- C9 at the positions 0 and 1 and the output directory `out`. -/
theorem output_paths_distinct_witness :
    outputImagePath (Join ["inputs".toList, imageFilename 0]) "out".toList
      ≠ outputImagePath (Join ["inputs".toList, imageFilename 1]) "out".toList :=
  output_paths_distinct "out".toList 0 1 (by decide)

/-- C10. The output path that `ProcessImage` logs and hands to the converter has
the extension of the base name of the input, whatever the input path and the
output directory are. -/
theorem output_extension_preserved {τ : Type} (converter : Converter τ)
    (inputImagePath outputDirPath : GoString) (w : World τ) :
    (ProcessImage converter inputImagePath outputDirPath w).2.log
      = w.log ++ [LogEntry.processing inputImagePath
          (outputImagePath inputImagePath outputDirPath)]
    ∧ ProcessImage converter inputImagePath outputDirPath w
      = ((converter.Grayscale inputImagePath (outputImagePath inputImagePath outputDirPath) w.ext).1,
          { log := w.log ++ [LogEntry.processing inputImagePath
              (outputImagePath inputImagePath outputDirPath)]
            ext := (converter.Grayscale inputImagePath
              (outputImagePath inputImagePath outputDirPath) w.ext).2 })
    ∧ Ext (outputImagePath inputImagePath outputDirPath) = Ext (Base inputImagePath) :=
  ⟨rfl, rfl, Ext_outputImagePath inputImagePath outputDirPath⟩

theorem stepMain_trans (cfg : Cfg) (s t : PState) (h : stepMain cfg s = some t) :
    Trans cfg Action.main s t := by
  unfold stepMain at h
  split at h
  · rename_i id hpc
    split at h
    · rename_i hlt
      cases h
      exact Trans.spawnDownload s id hpc hlt
    · rename_i hlt
      cases h
      exact Trans.spawnCoordinator s id hpc hlt
  · rename_i hpc
    cases h
    exact Trans.addWorkers s hpc
  · rename_i p hpc
    split at h
    · rename_i hle
      cases h
      exact Trans.spawnWorker s p hpc hle
    · rename_i hle
      cases h
      exact Trans.workersSpawned s p hpc hle
  · rename_i hpc
    split at h
    · rename_i h0
      cases h
      exact Trans.mainReturns s hpc h0
    · cases h
  · cases h

theorem processImage_eq (cfg : Cfg) (image : GoString) (w : World (List GoString)) :
    ProcessImage { cmd := imagickConvertImageCommand cfg } image cfg.outputDirPath w
      = (cfg.convertResult image,
          { log := w.log ++ [LogEntry.processing image (outputImagePath image cfg.outputDirPath)]
            ext := match cfg.convertResult image with
              | some _ => w.ext
              | none => w.ext ++ [outputImagePath image cfg.outputDirPath] }) := by
  show ((match cfg.convert (convertArgs image (outputImagePath image cfg.outputDirPath)) with
          | some err => (some err, w.ext)
          | none => (none, w.ext ++
              [(convertArgs image (outputImagePath image cfg.outputDirPath)).getLast?.getD []])).1,
        { log := w.log ++ [LogEntry.processing image (outputImagePath image cfg.outputDirPath)]
          ext := (match cfg.convert (convertArgs image (outputImagePath image cfg.outputDirPath)) with
          | some err => (some err, w.ext)
          | none => (none, w.ext ++
              [(convertArgs image (outputImagePath image cfg.outputDirPath)).getLast?.getD []])).2
          : World (List GoString) }) = _
  unfold Cfg.convertResult
  cases cfg.convert (convertArgs image (outputImagePath image cfg.outputDirPath)) with
  | some e => rfl
  | none => rfl

/-- Every step of `step` is one of the cases of `Trans`; steps are taken only while
`main` has not returned and nothing has panicked. -/
theorem step_trans (cfg : Cfg) (a : Action) (s t : PState) (h : step cfg a s = some t) :
    s.pc ≠ MainPc.returned ∧ s.panicked = false ∧ Trans cfg a s t := by
  unfold step at h
  split at h
  · cases h
  · rename_i hguard
    have hpc : s.pc ≠ MainPc.returned := fun hh => hguard (Or.inl hh)
    have hpanic : s.panicked = false := by
      cases hp : s.panicked with
      | false => rfl
      | true => exact absurd (Or.inr hp) hguard
    refine ⟨hpc, hpanic, ?_⟩
    cases a with
    | main => exact stepMain_trans cfg s t h
    | download id =>
      simp only at h
      split at h
      · rename_i link hd hl
        split at h
        · rename_i err herr
          cases h
          exact Trans.downloadFails s id link err hd hl herr
        · rename_i herr
          cases h
          exact Trans.downloadOk s id link hd hl herr
      · cases h
    | handOff id w =>
      simp only at h
      split at h
      · rename_i hd hw
        split at h
        · rename_i hc
          cases h
          exact Trans.handOff s id w hd hw hc.1 hc.2
        · cases h
      · cases h
    | sendBuffered id =>
      simp only at h
      split at h
      · rename_i hd
        split at h
        · rename_i hc
          cases h
          exact Trans.sendBuffered s id hd hc.1 hc.2
        · cases h
      · cases h
    | sendClosed id =>
      simp only at h
      split at h
      · rename_i hd
        split at h
        · rename_i hc
          cases h
          exact Trans.sendClosed s id hd hc
        · cases h
      · cases h
    | downloadDone id =>
      simp only at h
      split at h
      · rename_i hd
        split at h
        · rename_i hc
          cases h
          exact Trans.downloadDoneNegative s id hd hc
        · rename_i hc
          cases h
          exact Trans.downloadDone s id hd hc
      · cases h
    | waitReturns =>
      simp only at h
      split at h
      · rename_i hc
        cases h
        exact Trans.waitReturns s hc.1 hc.2
      · cases h
    | close =>
      simp only at h
      split at h
      · rename_i hc
        split at h
        · rename_i hcl
          cases h
          exact Trans.closeClosed s hc hcl
        · rename_i hcl
          cases h
          exact Trans.close s hc (by simpa using hcl)
      · cases h
    | receive w =>
      simp only at h
      split at h
      · rename_i image rest hw hb
        cases h
        exact Trans.receive s w image rest hw hb
      · cases h
    | process w =>
      simp only at h
      split at h
      · rename_i image hw
        rw [processImage_eq cfg image s.world] at h
        cases hres : cfg.convertResult image with
        | some err =>
          rw [hres] at h
          simp only at h
          cases h
          exact Trans.processFails s w image err hw hres
        | none =>
          rw [hres] at h
          simp only at h
          cases h
          exact Trans.processOk s w image hw hres
      · cases h
    | workerDone w =>
      simp only at h
      split at h
      · rename_i hw
        split at h
        · rename_i hc
          split at h
          · rename_i h0
            cases h
            exact Trans.workerDoneNegative s w hw hc.1 hc.2 h0
          · rename_i h0
            cases h
            exact Trans.workerDone s w hw hc.1 hc.2 h0
        · cases h
      · cases h

theorem countP_set_add {α : Type} (p : α → Bool) :
    ∀ (l : List α) (i : Nat) (a b : α), l[i]? = some a →
      (l.set i b).countP p + (if p a then 1 else 0) = l.countP p + (if p b then 1 else 0) := by
  intro l
  induction l with
  | nil => intro i a b h; simp at h
  | cons x l ih =>
    intro i a b h
    cases i with
    | zero =>
      simp at h
      subst h
      simp [List.countP_cons]
      omega
    | succ i =>
      simp at h
      have := ih i a b h
      simp [List.countP_cons]
      omega

theorem all_finished_countP (l : List Download) (h : l.countP Download.pending = 0)
    (habs : ∀ d ∈ l, d ≠ Download.absent) : ∀ d ∈ l, d = Download.finished := by
  intro d hd
  have h1 := (List.countP_eq_zero.mp h) d hd
  have h2 := habs d hd
  cases d <;> simp_all [Download.pending]

theorem inv_init (cfg : Cfg) : Inv cfg (PState.init cfg) where
  notPanicked := rfl
  len := by simp [PState.init]
  spawnedLe := by simp [PState.init, spawnedDownloads]
  absent_iff := by
    intro j
    simp [PState.init, spawnedDownloads, List.getElem?_replicate]
  wg := by
    simp [PState.init, List.countP_replicate, Download.pending]
  coordAbsent := by simp [PState.init]
  coordDone := by simp [PState.init]
  closed_iff := by simp [PState.init, makeChan]
  cap := rfl
  buf := rfl
  workersLen := rfl
  loopBound := by simp [PState.init]
  pwg := by simp [PState.init, addedWorkers]
  finishedClosed := by simp [PState.init]
  returnedWG := by simp [PState.init]

theorem getElem?_set_absent (l : List Download) (i j : Nat) (a b : Download)
    (h : l[i]? = some a) (ha : a ≠ Download.absent) (hb : b ≠ Download.absent) :
    (l.set i b)[j]? = some Download.absent ↔ l[j]? = some Download.absent := by
  rw [List.getElem?_set]
  by_cases hij : i = j
  · subst hij
    rw [if_pos rfl, h]
    split
    · simp [ha, hb]
    · simp [ha]
  · rw [if_neg hij]

theorem getElem?_mem {α : Type} (l : List α) (i : Nat) (a : α) (h : l[i]? = some a) : a ∈ l :=
  List.mem_iff_getElem?.mpr ⟨i, h⟩

theorem countP_pos_of_getElem? {α : Type} (p : α → Bool) (l : List α) (i : Nat) (a : α)
    (h : l[i]? = some a) (hp : p a = true) : 0 < l.countP p :=
  List.countP_pos_iff.mpr ⟨a, getElem?_mem l i a h, hp⟩

theorem countP_lt_length_of_getElem? {α : Type} (p : α → Bool) (l : List α) (i : Nat) (a : α)
    (h : l[i]? = some a) (hp : p a = false) : l.countP p < l.length := by
  have hle := List.countP_le_length p (l := l)
  rcases Nat.lt_or_ge (l.countP p) l.length with hlt | hge
  · exact hlt
  · have heq : l.countP p = l.length := le_antisymm hle hge
    have := (List.countP_eq_length.mp heq) a (getElem?_mem l i a h)
    simp [hp] at this

theorem mem_set_cases {α : Type} (l : List α) (i : Nat) (b x : α) (h : x ∈ l.set i b) :
    x ∈ l ∨ x = b :=
  List.mem_or_eq_of_mem_set h

theorem spawnedDownloads_eq (cfg : Cfg) (pc : MainPc) (h : ¬ ∃ id, pc = MainPc.spawnDownloads id) :
    spawnedDownloads cfg pc = cfg.imageLinks.length := by
  cases pc with
  | spawnDownloads id => exact absurd ⟨id, rfl⟩ h
  | addWorkers => rfl
  | spawnWorkers p => rfl
  | waitWorkers => rfl
  | returned => rfl

theorem Inv.no_absent {cfg : Cfg} {s : PState} (h : Inv cfg s)
    (hc : s.coordinator ≠ Coordinator.absent) : ∀ d ∈ s.downloads, d ≠ Download.absent := by
  intro d hd habs
  subst habs
  obtain ⟨j, hj⟩ := List.mem_iff_getElem?.mp hd
  have hpc : ¬ ∃ id, s.pc = MainPc.spawnDownloads id := fun hh => hc (h.coordAbsent.mpr hh)
  have := (h.absent_iff j).mp hj
  rw [spawnedDownloads_eq cfg s.pc hpc] at this
  omega

theorem Inv.workers_le {cfg : Cfg} {s : PState} (h : Inv cfg s) :
    s.workers.length ≤ addedWorkers cfg s.pc := by
  rw [h.workersLen]
  have hb := h.loopBound
  cases hpc : s.pc with
  | spawnDownloads id => simp [spawnedWorkers, addedWorkers]
  | addWorkers => simp [spawnedWorkers, addedWorkers]
  | spawnWorkers p =>
    have := hb p hpc
    simp only [spawnedWorkers, addedWorkers]
    omega
  | waitWorkers => simp [spawnedWorkers, addedWorkers]
  | returned => simp [spawnedWorkers, addedWorkers]

theorem Inv.not_finished_of {cfg : Cfg} {s : PState} (h : Inv cfg s) (id : Nat) (d : Download)
    (hd : s.downloads[id]? = some d) (hne : d ≠ Download.finished) :
    ¬ (s.coordinator = Coordinator.closing ∨ s.coordinator = Coordinator.finished) := by
  intro hc
  exact hne (h.coordDone hc d (getElem?_mem _ _ _ hd))

theorem inv_trans (cfg : Cfg) (a : Action) (s t : PState) (h : Inv cfg s)
    (ht : Trans cfg a s t) : Inv cfg t := by
  cases ht with
  | spawnDownload _ id hpc hlt =>
    have habs : s.downloads[id]? = some Download.absent := by
      rw [h.absent_iff, hpc]
      exact ⟨le_rfl, hlt⟩
    have hco : s.coordinator = Coordinator.absent := h.coordAbsent.mpr ⟨id, hpc⟩
    exact { h with
      len := by simp [h.len]
      spawnedLe := by simpa [spawnedDownloads] using hlt
      absent_iff := by
        intro j
        have hold := h.absent_iff j
        rw [hpc] at hold
        simp only [spawnedDownloads] at hold ⊢
        rw [List.getElem?_set]
        by_cases hij : id = j
        · subst hij
          rw [if_pos rfl]
          split <;> simp
        · rw [if_neg hij, hold]
          omega
      wg := by
        have := countP_set_add Download.pending s.downloads id Download.absent Download.fetching habs
        simp [Download.pending] at this
        simp only [this, h.wg]
      coordAbsent := by simp [hco]
      coordDone := by simp [hco]
      workersLen := by have := h.workersLen; rw [hpc] at this; simpa [spawnedWorkers] using this
      loopBound := by simp
      pwg := by have := h.pwg; rw [hpc] at this; simpa [addedWorkers] using this
      returnedWG := by simp }
  | spawnCoordinator _ id hpc hge =>
    have hco : s.coordinator = Coordinator.absent := h.coordAbsent.mpr ⟨id, hpc⟩
    have hcl : s.downloadedImage.closed = false := by
      cases hc : s.downloadedImage.closed with
      | false => rfl
      | true =>
        have := h.closed_iff.mp hc
        rw [hco] at this
        cases this
    have hid : id = cfg.imageLinks.length := by
      have := h.spawnedLe
      rw [hpc] at this
      simp only [spawnedDownloads] at this
      omega
    exact { h with
      spawnedLe := by simp [spawnedDownloads]
      absent_iff := by
        intro j
        have hold := h.absent_iff j
        rw [hpc] at hold
        simp only [spawnedDownloads] at hold ⊢
        rw [hold, hid]
      coordAbsent := by simp
      coordDone := by simp
      closed_iff := by simp [hcl]
      workersLen := by have := h.workersLen; rw [hpc] at this; simpa [spawnedWorkers] using this
      loopBound := by simp
      pwg := by have := h.pwg; rw [hpc] at this; simpa [addedWorkers] using this
      returnedWG := by simp }
  | addWorkers _ hpc =>
    have hco : s.coordinator ≠ Coordinator.absent := by
      intro hc
      obtain ⟨id, hid⟩ := h.coordAbsent.mp hc
      rw [hpc] at hid
      cases hid
    exact { h with
      spawnedLe := by simp [spawnedDownloads]
      absent_iff := by
        intro j
        have hold := h.absent_iff j
        rw [hpc] at hold
        simpa [spawnedDownloads] using hold
      coordAbsent := by simp [hco]
      workersLen := by have := h.workersLen; rw [hpc] at this; simpa [spawnedWorkers] using this
      loopBound := by simp
      pwg := by
        have := h.pwg
        rw [hpc] at this
        simp only [addedWorkers] at this ⊢
        omega
      returnedWG := by simp }
  | spawnWorker _ p hpc hle =>
    have hco : s.coordinator ≠ Coordinator.absent := by
      intro hc
      obtain ⟨id, hid⟩ := h.coordAbsent.mp hc
      rw [hpc] at hid
      cases hid
    have hb := h.loopBound p hpc
    exact { h with
      spawnedLe := by simp [spawnedDownloads]
      absent_iff := by
        intro j
        have hold := h.absent_iff j
        rw [hpc] at hold
        simpa [spawnedDownloads] using hold
      coordAbsent := by simp [hco]
      workersLen := by
        have := h.workersLen
        rw [hpc] at this
        simp only [spawnedWorkers] at this
        simp [spawnedWorkers, this]
        omega
      loopBound := by
        intro q hq
        cases hq
        omega
      pwg := by
        have := h.pwg
        rw [hpc] at this
        simpa [addedWorkers] using this
      finishedClosed := by
        intro hm
        apply h.finishedClosed
        simpa using hm
      returnedWG := by simp }
  | workersSpawned _ p hpc hle =>
    have hco : s.coordinator ≠ Coordinator.absent := by
      intro hc
      obtain ⟨id, hid⟩ := h.coordAbsent.mp hc
      rw [hpc] at hid
      cases hid
    have hb := h.loopBound p hpc
    exact { h with
      spawnedLe := by simp [spawnedDownloads]
      absent_iff := by
        intro j
        have hold := h.absent_iff j
        rw [hpc] at hold
        simpa [spawnedDownloads] using hold
      coordAbsent := by simp [hco]
      workersLen := by
        have := h.workersLen
        rw [hpc] at this
        simp only [spawnedWorkers] at this ⊢
        omega
      loopBound := by simp
      pwg := by
        have := h.pwg
        rw [hpc] at this
        simpa [addedWorkers] using this
      returnedWG := by simp }
  | mainReturns _ hpc h0 =>
    have hco : s.coordinator ≠ Coordinator.absent := by
      intro hc
      obtain ⟨id, hid⟩ := h.coordAbsent.mp hc
      rw [hpc] at hid
      cases hid
    exact { h with
      spawnedLe := by simp [spawnedDownloads]
      absent_iff := by
        intro j
        have hold := h.absent_iff j
        rw [hpc] at hold
        simpa [spawnedDownloads] using hold
      coordAbsent := by simp [hco]
      workersLen := by
        have := h.workersLen
        rw [hpc] at this
        simpa [spawnedWorkers] using this
      loopBound := by simp
      pwg := by
        have := h.pwg
        rw [hpc] at this
        simpa [addedWorkers] using this
      returnedWG := fun _ => h0 }
  | downloadFails _ id link err hd hl herr =>
    have hnc := h.not_finished_of id _ hd (by simp)
    exact { h with
      len := by simp [h.len]
      absent_iff := by
        intro j
        rw [getElem?_set_absent _ _ _ _ _ hd (by simp) (by simp)]
        exact h.absent_iff j
      wg := by
        have := countP_set_add Download.pending s.downloads id _ Download.returning hd
        simp [Download.pending] at this
        simp only [this, h.wg]
      coordDone := fun hc => absurd hc hnc }
  | downloadOk _ id link hd hl herr =>
    have hnc := h.not_finished_of id _ hd (by simp)
    exact { h with
      len := by simp [h.len]
      absent_iff := by
        intro j
        rw [getElem?_set_absent _ _ _ _ _ hd (by simp) (by simp)]
        exact h.absent_iff j
      wg := by
        have := countP_set_add Download.pending s.downloads id _ Download.sending hd
        simp [Download.pending] at this
        simp only [this, h.wg]
      coordDone := fun hc => absurd hc hnc }
  | handOff _ id w hd hw hcl hbuf =>
    have hnc := h.not_finished_of id _ hd (by simp)
    exact { h with
      len := by simp [h.len]
      absent_iff := by
        intro j
        rw [getElem?_set_absent _ _ _ _ _ hd (by simp) (by simp)]
        exact h.absent_iff j
      wg := by
        have := countP_set_add Download.pending s.downloads id _ Download.returning hd
        simp [Download.pending] at this
        simp only [this, h.wg]
      coordDone := fun hc => absurd hc hnc
      workersLen := by simp [h.workersLen]
      pwg := by
        have := countP_set_add (fun w => decide (w = Worker.finished)) s.workers w _
          (Worker.processing (stagedImage id)) hw
        simp at this
        simp only [this, h.pwg]
      finishedClosed := by
        intro hm
        rcases mem_set_cases _ _ _ _ hm with hm | hm
        · exact h.finishedClosed hm
        · cases hm }
  | sendBuffered _ id hd hcl hlt =>
    rw [h.cap] at hlt
    omega
  | sendClosed _ id hd hcl =>
    exact absurd (Or.inr (h.closed_iff.mp hcl)) (h.not_finished_of id _ hd (by simp))
  | downloadDoneNegative _ id hd h0 =>
    have := countP_pos_of_getElem? Download.pending s.downloads id _ hd rfl
    rw [← h.wg] at this
    omega
  | downloadDone _ id hd h0 =>
    have hnc := h.not_finished_of id _ hd (by simp)
    exact { h with
      len := by simp [h.len]
      absent_iff := by
        intro j
        rw [getElem?_set_absent _ _ _ _ _ hd (by simp) (by simp)]
        exact h.absent_iff j
      wg := by
        have := countP_set_add Download.pending s.downloads id _ Download.finished hd
        simp [Download.pending] at this
        have hwg := h.wg
        simp only
        omega
      coordDone := fun hc => absurd hc hnc }
  | waitReturns _ hc h0 =>
    have hall : ∀ d ∈ s.downloads, d = Download.finished :=
      all_finished_countP s.downloads (by rw [← h.wg]; exact h0)
        (h.no_absent (by rw [hc]; simp))
    have hcl : s.downloadedImage.closed = false := by
      cases hcl : s.downloadedImage.closed with
      | false => rfl
      | true =>
        have := h.closed_iff.mp hcl
        rw [hc] at this
        cases this
    exact { h with
      coordAbsent := by
        have := h.coordAbsent
        rw [hc] at this
        simpa using this
      coordDone := fun _ => hall
      closed_iff := by simp [hcl] }
  | closeClosed _ hc hcl =>
    have := h.closed_iff.mp hcl
    rw [hc] at this
    cases this
  | close _ hc hcl =>
    exact { h with
      coordAbsent := by
        have := h.coordAbsent
        rw [hc] at this
        simpa using this
      coordDone := fun _ => h.coordDone (Or.inl hc)
      closed_iff := by simp
      cap := h.cap
      buf := h.buf
      finishedClosed := fun _ => rfl }
  | receive _ w image rest hw hb =>
    rw [h.buf] at hb
    cases hb
  | processFails _ w image err hw hres =>
    exact { h with
      workersLen := by simp [h.workersLen]
      pwg := by
        have := countP_set_add (fun w => decide (w = Worker.finished)) s.workers w _
          Worker.receiving hw
        simp at this
        simp only [this, h.pwg]
      finishedClosed := by
        intro hm
        rcases mem_set_cases _ _ _ _ hm with hm | hm
        · exact h.finishedClosed hm
        · cases hm }
  | processOk _ w image hw hres =>
    exact { h with
      workersLen := by simp [h.workersLen]
      pwg := by
        have := countP_set_add (fun w => decide (w = Worker.finished)) s.workers w _
          Worker.receiving hw
        simp at this
        simp only [this, h.pwg]
      finishedClosed := by
        intro hm
        rcases mem_set_cases _ _ _ _ hm with hm | hm
        · exact h.finishedClosed hm
        · cases hm }
  | workerDoneNegative _ w hw hcl hbuf h0 =>
    have h1 := countP_lt_length_of_getElem? (fun w => decide (w = Worker.finished)) s.workers w _
      hw (by simp)
    have h2 := h.workers_le
    have h3 := h.pwg
    omega
  | workerDone _ w hw hcl hbuf h0 =>
    exact { h with
      workersLen := by simp [h.workersLen]
      pwg := by
        have := countP_set_add (fun w => decide (w = Worker.finished)) s.workers w _
          Worker.finished hw
        simp at this
        have hp := h.pwg
        simp only
        omega
      finishedClosed := fun _ => hcl
      returnedWG := by
        intro hpc
        have := h.returnedWG hpc
        simp only
        omega }

theorem inv_step (cfg : Cfg) (a : Action) (s t : PState) (h : Inv cfg s)
    (hs : step cfg a s = some t) : Inv cfg t :=
  inv_trans cfg a s t h (step_trans cfg a s t hs).2.2

theorem inv_reachable (cfg : Cfg) (s : PState) (h : Reachable cfg s) : Inv cfg s := by
  induction h with
  | init => exact inv_init cfg
  | step a _ hs ih => exact inv_step cfg a _ _ ih hs

theorem getElem?_set_of_some {α : Type} (l : List α) (i j : Nat) (a b : α) (h : l[i]? = some a) :
    (l.set i b)[j]? = if i = j then some b else l[j]? := by
  have hlt : i < l.length := by
    rcases List.getElem?_eq_some.mp h with ⟨hlt, _⟩
    exact hlt
  rw [List.getElem?_set, if_pos hlt]

theorem filterMap_set_same {β : Type} (F : Option Download → Nat → Option β)
    (ds : List Download) (id : Nat) (a b : Download) (h : ds[id]? = some a)
    (hF : F (some b) id = F (some a) id) (l : List Nat) :
    (l.filterMap fun j => F (ds.set id b)[j]? j) = l.filterMap fun j => F ds[j]? j := by
  apply List.filterMap_congr
  intro j _
  rw [getElem?_set_of_some ds id j a b h]
  by_cases hij : id = j
  · subst hij
    rw [if_pos rfl, hF, h]
  · rw [if_neg hij]

theorem filterMap_update_perm {β : Type} (g g' : Nat → Option β) (i : Nat) (b : β)
    (hg : g i = none) (hg' : g' i = some b) (hagree : ∀ j, j ≠ i → g' j = g j) :
    ∀ l : List Nat, l.Nodup → i ∈ l → (l.filterMap g').Perm (b :: l.filterMap g) := by
  intro l
  induction l with
  | nil => intro _ hi; simp at hi
  | cons x l ih =>
    intro hnd hi
    have hnd' := List.nodup_cons.mp hnd
    by_cases hx : x = i
    · subst hx
      have hsame : l.filterMap g' = l.filterMap g := by
        apply List.filterMap_congr
        intro j hj
        exact hagree j (fun hji => hnd'.1 (hji ▸ hj))
      rw [List.filterMap_cons_some hg', List.filterMap_cons_none hg, hsame]
    · have hi' : i ∈ l := by
        rcases List.mem_cons.mp hi with h | h
        · exact absurd h.symm hx
        · exact h
      have hrec := ih hnd'.2 hi'
      have hgx : g' x = g x := hagree x hx
      cases hc : g x with
      | none =>
        rw [List.filterMap_cons_none (hgx.trans hc), List.filterMap_cons_none hc]
        exact hrec
      | some c =>
        rw [List.filterMap_cons_some (hgx.trans hc), List.filterMap_cons_some hc]
        exact (hrec.cons c).trans (List.Perm.swap b c _)

theorem filterMap_set_new {β : Type} (F : Option Download → Nat → Option β)
    (ds : List Download) (id : Nat) (a b : Download) (x : β) (h : ds[id]? = some a)
    (hold : F (some a) id = none) (hnew : F (some b) id = some x)
    (l : List Nat) (hnd : l.Nodup) (hid : id ∈ l) :
    (l.filterMap fun j => F (ds.set id b)[j]? j).Perm (x :: l.filterMap fun j => F ds[j]? j) := by
  apply filterMap_update_perm (fun j => F ds[j]? j) (fun j => F (ds.set id b)[j]? j) id x
    _ _ _ l hnd hid
  · simp only [h, hold]
  · simp only [getElem?_set_of_some ds id id a b h, if_true, hnew]
  · intro j hj
    simp only [getElem?_set_of_some ds id j a b h, if_neg (Ne.symm hj)]

theorem busyImages_set_start (image : GoString) :
    ∀ (ws : List Worker) (w : Nat), ws[w]? = some Worker.receiving →
      (busyImages (ws.set w (Worker.processing image))).Perm (image :: busyImages ws) := by
  intro ws
  induction ws with
  | nil => intro w h; simp at h
  | cons x ws ih =>
    intro w h
    cases w with
    | zero =>
      simp at h
      subst h
      simp [busyImages]
    | succ w =>
      simp at h
      have := ih w h
      cases x with
      | processing i =>
        simp only [busyImages, List.set_cons_succ, List.filterMap_cons] at this ⊢
        exact (this.cons i).trans (List.Perm.swap image i _)
      | receiving =>
        simp only [busyImages, List.set_cons_succ, List.filterMap_cons] at this ⊢
        exact this
      | finished =>
        simp only [busyImages, List.set_cons_succ, List.filterMap_cons] at this ⊢
        exact this

theorem busyImages_set_end (image : GoString) (v : Worker) (hv : ∀ i, v ≠ Worker.processing i) :
    ∀ (ws : List Worker) (w : Nat), ws[w]? = some (Worker.processing image) →
      (image :: busyImages (ws.set w v)).Perm (busyImages ws) := by
  intro ws
  induction ws with
  | nil => intro w h; simp at h
  | cons x ws ih =>
    intro w h
    cases w with
    | zero =>
      simp at h
      subst h
      cases v with
      | processing i => exact absurd rfl (hv i)
      | receiving => simp [busyImages]
      | finished => simp [busyImages]
    | succ w =>
      simp at h
      have := ih w h
      cases x with
      | processing i =>
        simp only [busyImages, List.set_cons_succ, List.filterMap_cons] at this ⊢
        exact (List.Perm.swap i image _).trans (this.cons i)
      | receiving =>
        simp only [busyImages, List.set_cons_succ, List.filterMap_cons] at this ⊢
        exact this
      | finished =>
        simp only [busyImages, List.set_cons_succ, List.filterMap_cons] at this ⊢
        exact this

theorem busyImages_set_idle (v : Worker) (hv : ∀ i, v ≠ Worker.processing i) :
    ∀ (ws : List Worker) (w : Nat), ws[w]? = some Worker.receiving →
      busyImages (ws.set w v) = busyImages ws := by
  intro ws
  induction ws with
  | nil => intro w h; simp at h
  | cons x ws ih =>
    intro w h
    cases w with
    | zero =>
      simp at h
      subst h
      cases v with
      | processing i => exact absurd rfl (hv i)
      | receiving => simp [busyImages]
      | finished => simp [busyImages]
    | succ w =>
      simp at h
      have := ih w h
      simp only [busyImages, List.set_cons_succ, List.filterMap_cons] at this ⊢
      rw [this]

theorem GetImageFromLink_fst (env : DownloadEnv) (dir filename link : GoString)
    (created : List GoString) :
    (GetImageFromLink env dir filename link created).1
      = (GetImageFromLink env dir filename link []).1 := by
  unfold GetImageFromLink
  cases h1 : env.httpGet link with
  | some e => simp
  | none =>
    cases h2 : env.osCreate (Join [dir, filename]) with
    | some e => simp [h2]
    | none => simp [h2]

theorem dinv_init (cfg : Cfg) : DInv cfg (PState.init cfg) where
  sendingOk := by
    intro id h
    simp [PState.init, List.getElem?_replicate] at h
  images := by
    have : ((List.range cfg.imageLinks.length).filterMap fun id =>
        sentOf cfg (PState.init cfg).downloads[id]? id) = [] := by
      rw [List.filterMap_eq_nil_iff]
      intro id _
      simp only [PState.init, List.getElem?_replicate]
      split <;> rfl
    rw [this]
    exact List.Perm.refl _
  dlErrors := by
    have : ((List.range cfg.imageLinks.length).filterMap fun id =>
        errorOf cfg (PState.init cfg).downloads[id]? id) = [] := by
      rw [List.filterMap_eq_nil_iff]
      intro id _
      simp only [PState.init, List.getElem?_replicate]
      split <;> rfl
    rw [this]
    exact List.Perm.refl _
  staged := by
    have : ((List.range cfg.imageLinks.length).filterMap fun id =>
        createdOf cfg (PState.init cfg).downloads[id]? id) = [] := by
      rw [List.filterMap_eq_nil_iff]
      intro id _
      simp only [PState.init, List.getElem?_replicate]
      split <;> simp [createdOf]
    rw [this]
    exact List.Perm.refl _
  written := rfl
  convErrors := rfl
  logKinds := by simp [PState.init]

theorem createdOf_eq (cfg : Cfg) (id : Nat) (a b : Download)
    (ha : a = Download.sending ∨ a = Download.returning ∨ a = Download.finished)
    (hb : b = Download.sending ∨ b = Download.returning ∨ b = Download.finished) :
    createdOf cfg (some a) id = createdOf cfg (some b) id := by
  rcases ha with rfl | rfl | rfl <;> rcases hb with rfl | rfl | rfl <;>
    cases hl : cfg.imageLinks[id]? <;> simp [createdOf, hl]

theorem createdOf_early (cfg : Cfg) (id : Nat) (a : Download)
    (ha : a = Download.absent ∨ a = Download.fetching) : createdOf cfg (some a) id = none := by
  rcases ha with rfl | rfl <;> cases hl : cfg.imageLinks[id]? <;> simp [createdOf, hl]

theorem createdOf_late (cfg : Cfg) (id : Nat) (a : Download) (link : GoString)
    (hl : cfg.imageLinks[id]? = some link)
    (ha : a = Download.sending ∨ a = Download.returning ∨ a = Download.finished) :
    createdOf cfg (some a) id =
      if cfg.httpGet id link = none ∧ cfg.osCreate (stagedImage id) = none then
        some (stagedImage id)
      else none := by
  rcases ha with rfl | rfl | rfl <;> simp [createdOf, hl]

theorem downloadResult_eq (cfg : Cfg) (id : Nat) (link : GoString) (created : List GoString)
    (hl : cfg.imageLinks[id]? = some link) :
    cfg.downloadResult id
      = (GetImageFromLink (cfg.downloadEnv id) "inputs".toList (imageFilename id) link created).1 := by
  unfold Cfg.downloadResult
  rw [hl]
  exact (GetImageFromLink_fst _ _ _ _ _).symm

theorem lt_of_getElem?_eq_some {α : Type} (l : List α) (i : Nat) (a : α) (h : l[i]? = some a) :
    i < l.length := by
  rcases List.getElem?_eq_some.mp h with ⟨hlt, _⟩
  exact hlt

theorem processedImages_append (l₁ l₂ : List LogEntry) :
    processedImages (l₁ ++ l₂) = processedImages l₁ ++ processedImages l₂ := by
  simp [processedImages, List.filterMap_append]

theorem downloadErrors_append (l₁ l₂ : List LogEntry) :
    downloadErrors (l₁ ++ l₂) = downloadErrors l₁ ++ downloadErrors l₂ := by
  simp [downloadErrors, List.filterMap_append]

theorem conversionErrors_append (l₁ l₂ : List LogEntry) :
    conversionErrors (l₁ ++ l₂) = conversionErrors l₁ ++ conversionErrors l₂ := by
  simp [conversionErrors, List.filterMap_append]

theorem staged_step (cfg : Cfg) (s : PState) (id : Nat) (link : GoString) (b : Download)
    (hlen : s.downloads.length = cfg.imageLinks.length)
    (h : s.created.Perm
      ((List.range cfg.imageLinks.length).filterMap fun id => createdOf cfg s.downloads[id]? id))
    (hd : s.downloads[id]? = some Download.fetching) (hl : cfg.imageLinks[id]? = some link)
    (hb : b = Download.sending ∨ b = Download.returning ∨ b = Download.finished) :
    (GetImageFromLink (cfg.downloadEnv id) "inputs".toList (imageFilename id) link s.created).2.Perm
      ((List.range cfg.imageLinks.length).filterMap fun j =>
        createdOf cfg (s.downloads.set id b)[j]? j) := by
  have hid : id ∈ List.range cfg.imageLinks.length := by
    rw [List.mem_range, ← hlen]
    exact lt_of_getElem?_eq_some _ _ _ hd
  have hlate := createdOf_late cfg id b link hl hb
  have hearly := createdOf_early cfg id Download.fetching (Or.inr rfl)
  rw [GetImageFromLink_created]
  by_cases hc : cfg.httpGet id link = none ∧ cfg.osCreate (stagedImage id) = none
  · have hc' : (cfg.downloadEnv id).httpGet link = none ∧
        (cfg.downloadEnv id).osCreate (Join ["inputs".toList, imageFilename id]) = none := hc
    rw [if_pos hc']
    rw [if_pos hc] at hlate
    have hnew := filterMap_set_new (createdOf cfg) s.downloads id Download.fetching b
      (stagedImage id) hd hearly hlate _ (List.nodup_range _) hid
    have h1 : (s.created ++ [Join ["inputs".toList, imageFilename id]]).Perm
        (stagedImage id :: s.created) := List.perm_append_singleton _ _
    exact (h1.trans (h.cons _)).trans hnew.symm
  · have hc' : ¬ ((cfg.downloadEnv id).httpGet link = none ∧
        (cfg.downloadEnv id).osCreate (Join ["inputs".toList, imageFilename id]) = none) := hc
    rw [if_neg hc']
    rw [if_neg hc] at hlate
    rw [filterMap_set_same (createdOf cfg) s.downloads id Download.fetching b hd
      (hlate.trans hearly.symm)]
    exact h

theorem sendingOk_set (cfg : Cfg) (ds : List Download) (id : Nat) (a b : Download)
    (h : ∀ j, ds[j]? = some Download.sending → cfg.downloadResult j = none)
    (hd : ds[id]? = some a) (hb : b = Download.sending → cfg.downloadResult id = none) :
    ∀ j, (ds.set id b)[j]? = some Download.sending → cfg.downloadResult j = none := by
  intro j hj
  rw [getElem?_set_of_some ds id j a b hd] at hj
  by_cases hij : id = j
  · subst hij
    rw [if_pos rfl] at hj
    exact hb (Option.some.inj hj)
  · rw [if_neg hij] at hj
    exact h j hj

theorem dinv_trans (cfg : Cfg) (a : Action) (s t : PState) (hI : Inv cfg s) (h : DInv cfg s)
    (ht : Trans cfg a s t) : DInv cfg t := by
  cases ht with
  | spawnDownload _ id hpc hlt =>
    have hd : s.downloads[id]? = some Download.absent := by
      rw [hI.absent_iff, hpc]
      exact ⟨le_rfl, hlt⟩
    exact { h with
      sendingOk := sendingOk_set cfg _ id _ _ h.sendingOk hd (by simp)
      images := by
        show List.Perm _ ((List.range cfg.imageLinks.length).filterMap fun j =>
          sentOf cfg (s.downloads.set id Download.fetching)[j]? j)
        rw [filterMap_set_same (sentOf cfg) s.downloads id _ Download.fetching hd rfl]
        exact h.images
      dlErrors := by
        show List.Perm _ ((List.range cfg.imageLinks.length).filterMap fun j =>
          errorOf cfg (s.downloads.set id Download.fetching)[j]? j)
        rw [filterMap_set_same (errorOf cfg) s.downloads id _ Download.fetching hd rfl]
        exact h.dlErrors
      staged := by
        show List.Perm _ ((List.range cfg.imageLinks.length).filterMap fun j =>
          createdOf cfg (s.downloads.set id Download.fetching)[j]? j)
        rw [filterMap_set_same (createdOf cfg) s.downloads id _ Download.fetching hd
          ((createdOf_early cfg id _ (Or.inr rfl)).trans
            (createdOf_early cfg id _ (Or.inl rfl)).symm)]
        exact h.staged }
  | spawnCoordinator _ id hpc hge => exact { h with }
  | addWorkers _ hpc => exact { h with }
  | spawnWorker _ p hpc hle =>
    exact { h with
      images := by
        have : busyImages (s.workers ++ [Worker.receiving]) = busyImages s.workers := by
          simp [busyImages, List.filterMap_append]
        show List.Perm (busyImages (s.workers ++ [Worker.receiving]) ++ _ ++ _) _
        rw [this]
        exact h.images }
  | workersSpawned _ p hpc hle => exact { h with }
  | mainReturns _ hpc h0 => exact { h with }
  | downloadFails _ id link err hd hl herr =>
    have hres : cfg.downloadResult id = some err := by
      rw [downloadResult_eq cfg id link s.created hl]
      exact herr
    have hid : id ∈ List.range cfg.imageLinks.length := by
      rw [List.mem_range, ← hI.len]
      exact lt_of_getElem?_eq_some _ _ _ hd
    exact { h with
      sendingOk := sendingOk_set cfg _ id _ _ h.sendingOk hd (by simp)
      images := by
        show List.Perm (busyImages s.workers ++ s.downloadedImage.buf ++
            processedImages (s.world.log ++ [LogEntry.downloadError err]))
          ((List.range cfg.imageLinks.length).filterMap fun j =>
            sentOf cfg (s.downloads.set id Download.returning)[j]? j)
        rw [filterMap_set_same (sentOf cfg) s.downloads id _ Download.returning hd (by simp [sentOf, hres]),
          processedImages_append]
        simpa [processedImages] using h.images
      dlErrors := by
        show List.Perm (downloadErrors (s.world.log ++ [LogEntry.downloadError err]))
          ((List.range cfg.imageLinks.length).filterMap fun j =>
            errorOf cfg (s.downloads.set id Download.returning)[j]? j)
        have hnew := filterMap_set_new (errorOf cfg) s.downloads id Download.fetching
          Download.returning err hd rfl (by simp [errorOf, hres]) _ (List.nodup_range _) hid
        rw [downloadErrors_append]
        have h1 : (downloadErrors s.world.log ++ downloadErrors [LogEntry.downloadError err]).Perm
            (err :: downloadErrors s.world.log) := by
          simp [downloadErrors]
        exact (h1.trans (h.dlErrors.cons _)).trans hnew.symm
      staged := staged_step cfg s id link _ hI.len h.staged hd hl (Or.inr (Or.inl rfl))
      written := by
        show s.world.ext = (processedImages (s.world.log ++ [LogEntry.downloadError err])).filterMap _
        rw [processedImages_append]
        simpa [processedImages] using h.written
      convErrors := by
        show conversionErrors (s.world.log ++ [LogEntry.downloadError err])
          = (processedImages (s.world.log ++ [LogEntry.downloadError err])).filterMap _
        rw [processedImages_append, conversionErrors_append]
        simpa [processedImages, conversionErrors] using h.convErrors
      logKinds := by
        intro e he
        rcases List.mem_append.mp he with he | he
        · exact h.logKinds e he
        · simp at he
          subst he
          simp }
  | downloadOk _ id link hd hl herr =>
    have hres : cfg.downloadResult id = none := by
      rw [downloadResult_eq cfg id link s.created hl]
      exact herr
    exact { h with
      sendingOk := sendingOk_set cfg _ id _ _ h.sendingOk hd (fun _ => hres)
      images := by
        show List.Perm _ ((List.range cfg.imageLinks.length).filterMap fun j =>
          sentOf cfg (s.downloads.set id Download.sending)[j]? j)
        rw [filterMap_set_same (sentOf cfg) s.downloads id _ Download.sending hd rfl]
        exact h.images
      dlErrors := by
        show List.Perm _ ((List.range cfg.imageLinks.length).filterMap fun j =>
          errorOf cfg (s.downloads.set id Download.sending)[j]? j)
        rw [filterMap_set_same (errorOf cfg) s.downloads id _ Download.sending hd (by simp [errorOf, hres])]
        exact h.dlErrors
      staged := staged_step cfg s id link _ hI.len h.staged hd hl (Or.inl rfl) }
  | handOff _ id w hd hw hcl hbuf =>
    have hres : cfg.downloadResult id = none := h.sendingOk id hd
    have hid : id ∈ List.range cfg.imageLinks.length := by
      rw [List.mem_range, ← hI.len]
      exact lt_of_getElem?_eq_some _ _ _ hd
    exact { h with
      sendingOk := sendingOk_set cfg _ id _ _ h.sendingOk hd (by simp)
      images := by
        show List.Perm (busyImages (s.workers.set w (Worker.processing (stagedImage id))) ++
            s.downloadedImage.buf ++ processedImages s.world.log)
          ((List.range cfg.imageLinks.length).filterMap fun j =>
            sentOf cfg (s.downloads.set id Download.returning)[j]? j)
        have hnew := filterMap_set_new (sentOf cfg) s.downloads id Download.sending
          Download.returning (stagedImage id) hd rfl (by simp [sentOf, hres]) _
          (List.nodup_range _) hid
        have hb := busyImages_set_start (stagedImage id) s.workers w hw
        have h1 := (hb.append_right s.downloadedImage.buf).append_right (processedImages s.world.log)
        have h2 : (stagedImage id :: busyImages s.workers ++ s.downloadedImage.buf ++
            processedImages s.world.log).Perm
            (stagedImage id :: (List.range cfg.imageLinks.length).filterMap fun j =>
              sentOf cfg s.downloads[j]? j) := by
          simpa using h.images.cons (stagedImage id)
        exact (h1.trans h2).trans hnew.symm
      dlErrors := by
        show List.Perm _ ((List.range cfg.imageLinks.length).filterMap fun j =>
          errorOf cfg (s.downloads.set id Download.returning)[j]? j)
        rw [filterMap_set_same (errorOf cfg) s.downloads id _ Download.returning hd rfl]
        exact h.dlErrors
      staged := by
        show List.Perm _ ((List.range cfg.imageLinks.length).filterMap fun j =>
          createdOf cfg (s.downloads.set id Download.returning)[j]? j)
        rw [filterMap_set_same (createdOf cfg) s.downloads id _ Download.returning hd
          (createdOf_eq cfg id _ _ (Or.inr (Or.inl rfl)) (Or.inl rfl))]
        exact h.staged }
  | sendBuffered _ id hd hcl hlt =>
    rw [hI.cap] at hlt
    omega
  | sendClosed _ id hd hcl => exact { h with }
  | downloadDoneNegative _ id hd h0 => exact { h with }
  | downloadDone _ id hd h0 =>
    exact { h with
      sendingOk := sendingOk_set cfg _ id _ _ h.sendingOk hd (by simp)
      images := by
        show List.Perm _ ((List.range cfg.imageLinks.length).filterMap fun j =>
          sentOf cfg (s.downloads.set id Download.finished)[j]? j)
        rw [filterMap_set_same (sentOf cfg) s.downloads id _ Download.finished hd rfl]
        exact h.images
      dlErrors := by
        show List.Perm _ ((List.range cfg.imageLinks.length).filterMap fun j =>
          errorOf cfg (s.downloads.set id Download.finished)[j]? j)
        rw [filterMap_set_same (errorOf cfg) s.downloads id _ Download.finished hd rfl]
        exact h.dlErrors
      staged := by
        show List.Perm _ ((List.range cfg.imageLinks.length).filterMap fun j =>
          createdOf cfg (s.downloads.set id Download.finished)[j]? j)
        rw [filterMap_set_same (createdOf cfg) s.downloads id _ Download.finished hd
          (createdOf_eq cfg id _ _ (Or.inr (Or.inr rfl)) (Or.inr (Or.inl rfl)))]
        exact h.staged }
  | waitReturns _ hc h0 => exact { h with }
  | closeClosed _ hc hcl => exact { h with }
  | close _ hc hcl => exact { h with }
  | receive _ w image rest hw hb =>
    rw [hI.buf] at hb
    cases hb
  | processFails _ w image err hw hres =>
    exact { h with
      images := by
        show List.Perm (busyImages (s.workers.set w Worker.receiving) ++ s.downloadedImage.buf ++
            processedImages (s.world.log ++
              [LogEntry.processing image (outputImagePath image cfg.outputDirPath)] ++
              [LogEntry.conversionError err])) _
        have hb := busyImages_set_end image Worker.receiving (by simp) s.workers w hw
        have h0 : processedImages (s.world.log ++
              [LogEntry.processing image (outputImagePath image cfg.outputDirPath)] ++
              [LogEntry.conversionError err]) = processedImages s.world.log ++ [image] := by
          simp [processedImages, List.filterMap_append]
        rw [h0, ← List.append_assoc]
        have h1 := List.perm_append_singleton image
          (busyImages (s.workers.set w Worker.receiving) ++ s.downloadedImage.buf ++
            processedImages s.world.log)
        have h2 := (hb.append_right s.downloadedImage.buf).append_right (processedImages s.world.log)
        exact (h1.trans (by simpa using h2)).trans h.images
      dlErrors := by
        show List.Perm (downloadErrors (s.world.log ++
              [LogEntry.processing image (outputImagePath image cfg.outputDirPath)] ++
              [LogEntry.conversionError err])) _
        have h0 : downloadErrors (s.world.log ++
              [LogEntry.processing image (outputImagePath image cfg.outputDirPath)] ++
              [LogEntry.conversionError err]) = downloadErrors s.world.log := by
          simp [downloadErrors, List.filterMap_append]
        rw [h0]
        exact h.dlErrors
      written := by
        show s.world.ext = (processedImages (s.world.log ++
              [LogEntry.processing image (outputImagePath image cfg.outputDirPath)] ++
              [LogEntry.conversionError err])).filterMap _
        have h0 : processedImages (s.world.log ++
              [LogEntry.processing image (outputImagePath image cfg.outputDirPath)] ++
              [LogEntry.conversionError err]) = processedImages s.world.log ++ [image] := by
          simp [processedImages, List.filterMap_append]
        rw [h0, List.filterMap_append, ← h.written]
        simp [writtenOf, hres]
      convErrors := by
        show conversionErrors (s.world.log ++
              [LogEntry.processing image (outputImagePath image cfg.outputDirPath)] ++
              [LogEntry.conversionError err])
          = (processedImages (s.world.log ++
              [LogEntry.processing image (outputImagePath image cfg.outputDirPath)] ++
              [LogEntry.conversionError err])).filterMap _
        have h0 : processedImages (s.world.log ++
              [LogEntry.processing image (outputImagePath image cfg.outputDirPath)] ++
              [LogEntry.conversionError err]) = processedImages s.world.log ++ [image] := by
          simp [processedImages, List.filterMap_append]
        have h1 : conversionErrors (s.world.log ++
              [LogEntry.processing image (outputImagePath image cfg.outputDirPath)] ++
              [LogEntry.conversionError err]) = conversionErrors s.world.log ++ [err] := by
          simp [conversionErrors, List.filterMap_append]
        rw [h0, h1, List.filterMap_append, ← h.convErrors]
        simp [hres]
      logKinds := by
        intro e he
        simp only [List.mem_append, List.mem_singleton] at he
        rcases he with (he | he) | he
        · exact h.logKinds e he
        · subst he
          simp
        · subst he
          simp }
  | processOk _ w image hw hres =>
    exact { h with
      images := by
        show List.Perm (busyImages (s.workers.set w Worker.receiving) ++ s.downloadedImage.buf ++
            processedImages (s.world.log ++
              [LogEntry.processing image (outputImagePath image cfg.outputDirPath)])) _
        have hb := busyImages_set_end image Worker.receiving (by simp) s.workers w hw
        have h0 : processedImages (s.world.log ++
              [LogEntry.processing image (outputImagePath image cfg.outputDirPath)])
            = processedImages s.world.log ++ [image] := by
          simp [processedImages, List.filterMap_append]
        rw [h0, ← List.append_assoc]
        have h1 := List.perm_append_singleton image
          (busyImages (s.workers.set w Worker.receiving) ++ s.downloadedImage.buf ++
            processedImages s.world.log)
        have h2 := (hb.append_right s.downloadedImage.buf).append_right (processedImages s.world.log)
        exact (h1.trans (by simpa using h2)).trans h.images
      dlErrors := by
        show List.Perm (downloadErrors (s.world.log ++
              [LogEntry.processing image (outputImagePath image cfg.outputDirPath)])) _
        have h0 : downloadErrors (s.world.log ++
              [LogEntry.processing image (outputImagePath image cfg.outputDirPath)])
            = downloadErrors s.world.log := by
          simp [downloadErrors, List.filterMap_append]
        rw [h0]
        exact h.dlErrors
      written := by
        show s.world.ext ++ [outputImagePath image cfg.outputDirPath]
          = (processedImages (s.world.log ++
              [LogEntry.processing image (outputImagePath image cfg.outputDirPath)])).filterMap _
        have h0 : processedImages (s.world.log ++
              [LogEntry.processing image (outputImagePath image cfg.outputDirPath)])
            = processedImages s.world.log ++ [image] := by
          simp [processedImages, List.filterMap_append]
        rw [h0, List.filterMap_append, ← h.written]
        simp [writtenOf, hres]
      convErrors := by
        show conversionErrors (s.world.log ++
              [LogEntry.processing image (outputImagePath image cfg.outputDirPath)])
          = (processedImages (s.world.log ++
              [LogEntry.processing image (outputImagePath image cfg.outputDirPath)])).filterMap _
        have h0 : processedImages (s.world.log ++
              [LogEntry.processing image (outputImagePath image cfg.outputDirPath)])
            = processedImages s.world.log ++ [image] := by
          simp [processedImages, List.filterMap_append]
        have h1 : conversionErrors (s.world.log ++
              [LogEntry.processing image (outputImagePath image cfg.outputDirPath)])
            = conversionErrors s.world.log := by
          simp [conversionErrors, List.filterMap_append]
        rw [h0, h1, List.filterMap_append, ← h.convErrors]
        simp [hres]
      logKinds := by
        intro e he
        simp only [List.mem_append, List.mem_singleton] at he
        rcases he with he | he
        · exact h.logKinds e he
        · subst he
          simp }
  | workerDoneNegative _ w hw hcl hbuf h0 => exact { h with }
  | workerDone _ w hw hcl hbuf h0 =>
    exact { h with
      images := by
        show List.Perm (busyImages (s.workers.set w Worker.finished) ++ _ ++ _) _
        rw [busyImages_set_idle Worker.finished (by simp) s.workers w hw]
        exact h.images }

theorem dinv_reachable (cfg : Cfg) (s : PState) (h : Reachable cfg s) : DInv cfg s := by
  induction h with
  | init => exact dinv_init cfg
  | step a hr hs ih =>
    exact dinv_trans cfg a _ _ (inv_reachable cfg _ hr) ih (step_trans cfg a _ _ hs).2.2

/-! ### Every run is finite -/

theorem sum_map_set {α : Type} (f : α → Nat) :
    ∀ (l : List α) (i : Nat) (a b : α), l[i]? = some a →
      ((l.set i b).map f).sum + f a = (l.map f).sum + f b := by
  intro l
  induction l with
  | nil => intro i a b h; simp at h
  | cons x l ih =>
    intro i a b h
    cases i with
    | zero =>
      simp at h
      subst h
      simp
      omega
    | succ i =>
      simp at h
      have := ih i a b h
      simp only [List.set_cons_succ, List.map_cons, List.sum_cons]
      omega

theorem sum_map_set_le {α : Type} (f : α → Nat) (l : List α) (i : Nat) (b : α) :
    ((l.set i b).map f).sum ≤ (l.map f).sum + f b := by
  cases h : l[i]? with
  | none =>
    have hlen : l.length ≤ i := by
      rcases Nat.lt_or_ge i l.length with hlt | hge
      · rw [List.getElem?_eq_getElem hlt] at h
        cases h
      · exact hge
    rw [List.set_eq_of_length_le hlen]
    omega
  | some a =>
    have := sum_map_set f l i a b h
    omega

theorem measure_trans (cfg : Cfg) (a : Action) (s t : PState) (hp : s.panicked = false)
    (ht : Trans cfg a s t) : t.measure cfg < s.measure cfg := by
  cases ht with
  | spawnDownload _ id hpc hlt =>
    have := sum_map_set_le Download.weight s.downloads id Download.fetching
    simp only [PState.measure, hpc, MainPc.weight, hp, Download.weight] at this ⊢
    omega
  | spawnCoordinator _ id hpc hge =>
    simp only [PState.measure, hpc, MainPc.weight, hp, Coordinator.weight]
    have : s.coordinator.weight ≥ 0 := Nat.zero_le _
    omega
  | addWorkers _ hpc =>
    simp only [PState.measure, hpc, MainPc.weight, hp]
    omega
  | spawnWorker _ p hpc hle =>
    simp only [PState.measure, hpc, MainPc.weight, hp, List.map_append, List.sum_append,
      List.map_cons, List.map_nil, List.sum_cons, List.sum_nil, Worker.weight]
    omega
  | workersSpawned _ p hpc hle =>
    simp only [PState.measure, hpc, MainPc.weight, hp]
    omega
  | mainReturns _ hpc h0 =>
    simp only [PState.measure, hpc, MainPc.weight, hp]
    omega
  | downloadFails _ id link err hd hl herr =>
    have := sum_map_set Download.weight s.downloads id _ Download.returning hd
    simp only [PState.measure, hp, Download.weight] at this ⊢
    omega
  | downloadOk _ id link hd hl herr =>
    have := sum_map_set Download.weight s.downloads id _ Download.sending hd
    simp only [PState.measure, hp, Download.weight] at this ⊢
    omega
  | handOff _ id w hd hw hcl hbuf =>
    have h1 := sum_map_set Download.weight s.downloads id _ Download.returning hd
    have h2 := sum_map_set Worker.weight s.workers w _ (Worker.processing (stagedImage id)) hw
    simp only [PState.measure, hp, Download.weight, Worker.weight] at h1 h2 ⊢
    omega
  | sendBuffered _ id hd hcl hlt =>
    have h1 := sum_map_set Download.weight s.downloads id _ Download.returning hd
    simp only [PState.measure, hp, Download.weight, List.length_append, List.length_singleton]
      at h1 ⊢
    omega
  | sendClosed _ id hd hcl =>
    simp only [PState.measure, hp]
    simp
  | downloadDoneNegative _ id hd h0 =>
    simp only [PState.measure, hp]
    simp
  | downloadDone _ id hd h0 =>
    have h1 := sum_map_set Download.weight s.downloads id _ Download.finished hd
    simp only [PState.measure, hp, Download.weight] at h1 ⊢
    omega
  | waitReturns _ hc h0 =>
    simp only [PState.measure, hp, hc, Coordinator.weight]
    omega
  | closeClosed _ hc hcl =>
    simp only [PState.measure, hp]
    simp
  | close _ hc hcl =>
    simp only [PState.measure, hp, hc, Coordinator.weight]
    omega
  | receive _ w image rest hw hb =>
    have h2 := sum_map_set Worker.weight s.workers w _ (Worker.processing image) hw
    simp only [PState.measure, hp, hb, Worker.weight, List.length_cons] at h2 ⊢
    omega
  | processFails _ w image err hw hres =>
    have h2 := sum_map_set Worker.weight s.workers w _ Worker.receiving hw
    simp only [PState.measure, hp, Worker.weight] at h2 ⊢
    omega
  | processOk _ w image hw hres =>
    have h2 := sum_map_set Worker.weight s.workers w _ Worker.receiving hw
    simp only [PState.measure, hp, Worker.weight] at h2 ⊢
    omega
  | workerDoneNegative _ w hw hcl hbuf h0 =>
    simp only [PState.measure, hp]
    simp
  | workerDone _ w hw hcl hbuf h0 =>
    have h2 := sum_map_set Worker.weight s.workers w _ Worker.finished hw
    simp only [PState.measure, hp, Worker.weight] at h2 ⊢
    omega

/-- Every step lowers the measure, so no run of the pipeline is infinite. -/
theorem measure_step (cfg : Cfg) (a : Action) (s t : PState) (h : step cfg a s = some t) :
    t.measure cfg < s.measure cfg :=
  measure_trans cfg a s t (step_trans cfg a s t h).2.1 (step_trans cfg a s t h).2.2

/-! ### No state before the return of `main` is stuck -/

theorem exists_of_countP_lt {α : Type} (p : α → Bool) (l : List α) (h : l.countP p < l.length) :
    ∃ (i : Nat) (a : α), l[i]? = some a ∧ p a = false := by
  by_contra hne
  have hall : ∀ a ∈ l, p a = true := by
    intro a ha
    obtain ⟨i, hi⟩ := List.mem_iff_getElem?.mp ha
    cases hp : p a with
    | true => rfl
    | false => exact absurd ⟨i, a, hi, hp⟩ hne
  have := List.countP_eq_length.mpr hall
  omega

theorem exists_of_countP_pos {α : Type} (p : α → Bool) (l : List α) (h : 0 < l.countP p) :
    ∃ (i : Nat) (a : α), l[i]? = some a ∧ p a = true := by
  obtain ⟨a, ha, hp⟩ := List.countP_pos_iff.mp h
  obtain ⟨i, hi⟩ := List.mem_iff_getElem?.mp ha
  exact ⟨i, a, hi, hp⟩

theorem step_enabled (cfg : Cfg) (a : Action) (s : PState) (h : (step cfg a s).isSome = true) :
    ∃ a t, step cfg a s = some t := by
  obtain ⟨t, ht⟩ := Option.isSome_iff_exists.mp h
  exact ⟨a, t, ht⟩

/-- A state that satisfies the invariant and in which `main` has not returned has a
step. -/
theorem progress (cfg : Cfg) (s : PState) (hI : Inv cfg s) (hpc : s.pc ≠ MainPc.returned) :
    ∃ a t, step cfg a s = some t := by
  have hp := hI.notPanicked
  have hguard : ¬ (s.pc = MainPc.returned ∨ s.panicked = true) := by
    rintro (h | h)
    · exact hpc h
    · rw [hp] at h
      cases h
  cases hs : s.pc with
  | returned => exact absurd hs hpc
  | spawnDownloads id =>
    apply step_enabled cfg Action.main
    unfold step
    rw [if_neg hguard]
    simp only [stepMain, hs]
    split <;> rfl
  | addWorkers =>
    apply step_enabled cfg Action.main
    unfold step
    rw [if_neg hguard]
    simp only [stepMain, hs]
    rfl
  | spawnWorkers p =>
    apply step_enabled cfg Action.main
    unfold step
    rw [if_neg hguard]
    simp only [stepMain, hs]
    split <;> rfl
  | waitWorkers =>
    by_cases h0 : s.processWG = 0
    · apply step_enabled cfg Action.main
      unfold step
      rw [if_neg hguard]
      simp only [stepMain, hs, h0, if_true]
      rfl
    · -- some worker has not finished
      have hlen := hI.workersLen
      have hpwg := hI.pwg
      rw [hs] at hlen hpwg
      simp only [spawnedWorkers, addedWorkers] at hlen hpwg
      obtain ⟨w, x, hw, hx⟩ := exists_of_countP_lt
        (fun w => decide (w = Worker.finished)) s.workers (by omega)
      have hbuf := hI.buf
      cases x with
      | finished => simp at hx
      | processing image =>
        apply step_enabled cfg (Action.process w)
        unfold step
        rw [if_neg hguard]
        simp only [hw]
        split <;> rfl
      | receiving =>
        cases hcl : s.downloadedImage.closed with
        | true =>
          apply step_enabled cfg (Action.workerDone w)
          unfold step
          rw [if_neg hguard]
          simp only [hw, hcl, hbuf, and_self, if_true]
          split <;> rfl
        | false =>
          have hco1 : s.coordinator ≠ Coordinator.finished := by
            intro hc
            have := hI.closed_iff.mpr hc
            rw [hcl] at this
            cases this
          have hco2 : s.coordinator ≠ Coordinator.absent := by
            intro hc
            obtain ⟨id, hid⟩ := hI.coordAbsent.mp hc
            rw [hs] at hid
            cases hid
          cases hco : s.coordinator with
          | absent => exact absurd hco hco2
          | finished => exact absurd hco hco1
          | closing =>
            apply step_enabled cfg Action.close
            unfold step
            rw [if_neg hguard]
            simp only [hco, if_true, hcl]
            rfl
          | waiting =>
            by_cases hd0 : s.downloadWG = 0
            · apply step_enabled cfg Action.waitReturns
              unfold step
              rw [if_neg hguard]
              simp only [hco, hd0, and_self, if_true]
              rfl
            · have hwg := hI.wg
              obtain ⟨id, d, hd, hpend⟩ := exists_of_countP_pos Download.pending s.downloads
                (by omega)
              have hidlt : id < cfg.imageLinks.length := by
                rw [← hI.len]
                exact lt_of_getElem?_eq_some _ _ _ hd
              cases d with
              | absent => simp [Download.pending] at hpend
              | finished => simp [Download.pending] at hpend
              | fetching =>
                apply step_enabled cfg (Action.download id)
                have hl : cfg.imageLinks[id]? = some (cfg.imageLinks[id]) :=
                  List.getElem?_eq_getElem hidlt
                unfold step
                rw [if_neg hguard]
                simp only [hd, hl]
                split <;> rfl
              | sending =>
                apply step_enabled cfg (Action.handOff id w)
                unfold step
                rw [if_neg hguard]
                simp only [hd, hw, hcl, hbuf, and_self, if_true]
                rfl
              | returning =>
                apply step_enabled cfg (Action.downloadDone id)
                unfold step
                rw [if_neg hguard]
                simp only [hd]
                split <;> rfl

/-! ### Runs -/

theorem reachable_exec (cfg : Cfg) :
    ∀ (as : List Action) (s t : PState), Reachable cfg s → exec cfg as s = some t →
      Reachable cfg t := by
  intro as
  induction as with
  | nil =>
    intro s t hs h
    simp only [exec] at h
    cases h
    exact hs
  | cons a as ih =>
    intro s t hs h
    simp only [exec] at h
    cases hstep : step cfg a s with
    | none => rw [hstep] at h; cases h
    | some u =>
      rw [hstep] at h
      exact ih u t (Reachable.step a hs hstep) h

/-- A run from `s` has at most `s.measure` steps. -/
theorem exec_length_le (cfg : Cfg) :
    ∀ (as : List Action) (s t : PState), exec cfg as s = some t →
      as.length + t.measure cfg ≤ s.measure cfg := by
  intro as
  induction as with
  | nil =>
    intro s t h
    simp only [exec] at h
    cases h
    simp
  | cons a as ih =>
    intro s t h
    simp only [exec] at h
    cases hstep : step cfg a s with
    | none => rw [hstep] at h; cases h
    | some u =>
      rw [hstep] at h
      have h1 := ih u t h
      have h2 := measure_step cfg a s u hstep
      simp only [List.length_cons]
      omega

/-- From every state that satisfies the invariant the pipeline can run until `main`
returns. -/
theorem runs_to_completion (cfg : Cfg) :
    ∀ (n : Nat) (s : PState), s.measure cfg ≤ n → Inv cfg s →
      ∃ as t, exec cfg as s = some t ∧ t.pc = MainPc.returned := by
  intro n
  induction n with
  | zero =>
    intro s hn hI
    by_cases hpc : s.pc = MainPc.returned
    · exact ⟨[], s, rfl, hpc⟩
    · obtain ⟨a, t, ht⟩ := progress cfg s hI hpc
      have := measure_step cfg a s t ht
      omega
  | succ n ih =>
    intro s hn hI
    by_cases hpc : s.pc = MainPc.returned
    · exact ⟨[], s, rfl, hpc⟩
    · obtain ⟨a, t, ht⟩ := progress cfg s hI hpc
      have hlt := measure_step cfg a s t ht
      obtain ⟨as, u, hu, hfin⟩ := ih t (by omega) (inv_step cfg a s t hI ht)
      refine ⟨a :: as, u, ?_, hfin⟩
      simp only [exec, ht]
      exact hu

/-! ### The state in which `main` has returned -/

theorem busyImages_finished (ws : List Worker) (h : ∀ w ∈ ws, w = Worker.finished) :
    busyImages ws = [] := by
  unfold busyImages
  rw [List.filterMap_eq_nil_iff]
  intro w hw
  rw [h w hw]

theorem completed_of_returned (cfg : Cfg) (hcpu : 0 < cfg.numCPU) (s : PState)
    (hI : Inv cfg s) (hD : DInv cfg s) (hpc : s.pc = MainPc.returned) : Completed cfg s := by
  have hwg := hI.returnedWG hpc
  have hlen := hI.workersLen
  have hpwg := hI.pwg
  rw [hpc] at hlen hpwg
  simp only [spawnedWorkers, addedWorkers] at hlen hpwg
  have hworkers : ∀ w ∈ s.workers, w = Worker.finished := by
    have hc : s.workers.countP (fun w => decide (w = Worker.finished)) = s.workers.length := by
      omega
    intro w hw
    have := (List.countP_eq_length.mp hc) w hw
    simpa using this
  have hclosed : s.downloadedImage.closed = true := by
    apply hI.finishedClosed
    cases hws : s.workers with
    | nil =>
      rw [hws] at hlen
      simp at hlen
      omega
    | cons w ws =>
      have := hworkers w (by rw [hws]; simp)
      rw [this]
      simp
  have hall := hI.coordDone (Or.inr (hI.closed_iff.mp hclosed))
  have hdl : ∀ id, id < cfg.imageLinks.length → s.downloads[id]? = some Download.finished := by
    intro id hid
    have hlt : id < s.downloads.length := by rw [hI.len]; exact hid
    rw [List.getElem?_eq_getElem hlt]
    congr 1
    exact hall _ (List.getElem_mem hlt)
  have hsent : ((List.range cfg.imageLinks.length).filterMap fun id =>
      sentOf cfg s.downloads[id]? id)
      = (List.range cfg.imageLinks.length).filterMap fun id =>
        if cfg.downloadResult id = none then some (stagedImage id) else none := by
    apply List.filterMap_congr
    intro id hid
    rw [hdl id (List.mem_range.mp hid)]
    rfl
  have herr : ((List.range cfg.imageLinks.length).filterMap fun id =>
      errorOf cfg s.downloads[id]? id)
      = (List.range cfg.imageLinks.length).filterMap cfg.downloadResult := by
    apply List.filterMap_congr
    intro id hid
    rw [hdl id (List.mem_range.mp hid)]
    rfl
  have hproc : (processedImages s.world.log).Perm
      ((List.range cfg.imageLinks.length).filterMap fun id =>
        if cfg.downloadResult id = none then some (stagedImage id) else none) := by
    have := hD.images
    rw [busyImages_finished _ hworkers, hI.buf, hsent] at this
    simpa using this
  refine
    { downloads := hdl
      workers := hworkers
      closed := hclosed
      outputs := ?_
      dlErrors := ?_
      convErrors := ?_
      processed := hproc }
  · rw [hD.written]
    have h1 := hproc.filterMap (writtenOf cfg)
    rw [List.filterMap_filterMap] at h1
    have h2 : ((List.range cfg.imageLinks.length).filterMap fun id =>
        (if cfg.downloadResult id = none then some (stagedImage id) else none).bind (writtenOf cfg))
        = (List.range cfg.imageLinks.length).filterMap (expectedOutput cfg) := by
      apply List.filterMap_congr
      intro id _
      unfold expectedOutput writtenOf
      by_cases hd : cfg.downloadResult id = none
      · by_cases hc : cfg.convertResult (stagedImage id) = none
        · simp [hd, hc, outputImagePath_stagedImage]
        · simp [hd, hc]
      · simp [hd]
    rw [h2] at h1
    exact h1
  · have := hD.dlErrors
    rw [herr] at this
    exact this
  · rw [hD.convErrors]
    have h1 := hproc.filterMap cfg.convertResult
    rw [List.filterMap_filterMap] at h1
    have h2 : ((List.range cfg.imageLinks.length).filterMap fun id =>
        (if cfg.downloadResult id = none then some (stagedImage id) else none).bind
          cfg.convertResult)
        = (List.range cfg.imageLinks.length).filterMap (expectedConversionError cfg) := by
      apply List.filterMap_congr
      intro id _
      unfold expectedConversionError
      by_cases hd : cfg.downloadResult id = none
      · simp [hd]
      · simp [hd]
    rw [h2] at h1
    exact h1

theorem expectedOutput_injective (cfg : Cfg) :
    ∀ a a' b, b ∈ expectedOutput cfg a → b ∈ expectedOutput cfg a' → a = a' := by
  intro a a' b ha ha'
  unfold expectedOutput at ha ha'
  split at ha
  · split at ha'
    · simp only [Option.mem_def, Option.some.injEq] at ha ha'
      rw [Join_realElem _ _ (grayscaledName_realElem a)] at ha
      rw [Join_realElem _ _ (grayscaledName_realElem a')] at ha'
      exact grayscaledName_injective (List.append_cancel_left (ha.trans ha'.symm))
    · simp at ha'
  · simp at ha

theorem expectedOutputs_nodup (cfg : Cfg) :
    ((List.range cfg.imageLinks.length).filterMap (expectedOutput cfg)).Nodup :=
  List.Nodup.filterMap (expectedOutput_injective cfg) (List.nodup_range _)

theorem mem_expectedOutputs (cfg : Cfg) (p : GoString) :
    p ∈ (List.range cfg.imageLinks.length).filterMap (expectedOutput cfg) ↔
      ∃ id, id < cfg.imageLinks.length ∧ cfg.downloadResult id = none ∧
        cfg.convertResult (stagedImage id) = none ∧
        p = Join [cfg.outputDirPath, grayscaledName id] := by
  rw [List.mem_filterMap]
  constructor
  · rintro ⟨id, hid, h⟩
    unfold expectedOutput at h
    split at h
    · rename_i hc
      exact ⟨id, List.mem_range.mp hid, hc.1, hc.2, (Option.some.inj h).symm⟩
    · cases h
  · rintro ⟨id, hid, hd, hc, rfl⟩
    exact ⟨id, List.mem_range.mpr hid, by simp [expectedOutput, hd, hc]⟩

theorem countP_range_eq (n k : Nat) (hk : k < n) (p : Nat → Bool)
    (hp : ∀ id, id < n → (p id = true ↔ id = k)) : (List.range n).countP p = 1 := by
  have h1 : (List.range n).countP p = (List.range n).countP (fun id => id == k) := by
    apply List.countP_congr
    intro id hid
    rw [hp id (List.mem_range.mp hid)]
    simp
  rw [h1]
  exact List.count_eq_one_of_mem (List.nodup_range n) (List.mem_range.mpr hk)

theorem countP_range_ne (n k : Nat) (hk : k < n) (p : Nat → Bool)
    (hp : ∀ id, id < n → (p id = true ↔ id ≠ k)) : (List.range n).countP p = n - 1 := by
  have h1 := List.length_eq_countP_add_countP (p := p) (List.range n)
  have h2 : (List.range n).countP (fun a => decide ¬ p a = true) = 1 := by
    apply countP_range_eq n k hk
    intro id hid
    have := hp id hid
    simp only [decide_eq_true_eq]
    constructor
    · intro h
      by_contra hne
      exact h (this.mpr hne)
    · intro h hne
      exact (this.mp hne) h
  rw [List.length_range] at h1
  omega

theorem log_eq_nil (log : List LogEntry)
    (hk : ∀ e ∈ log, e ≠ LogEntry.usage ∧ ∀ err, e ≠ LogEntry.csvError err)
    (hp : processedImages log = []) (hd : downloadErrors log = [])
    (hc : conversionErrors log = []) : log = [] := by
  cases log with
  | nil => rfl
  | cons e log =>
    exfalso
    have := hk e (by simp)
    cases e with
    | usage => exact this.1 rfl
    | csvError err => exact this.2 err rfl
    | downloadError err => simp [downloadErrors] at hd
    | processing i o => simp [processedImages] at hp
    | conversionError err => simp [conversionErrors] at hc

theorem entry_kinds (e : LogEntry)
    (hk : e ≠ LogEntry.usage ∧ ∀ err, e ≠ LogEntry.csvError err) :
    (∃ err, e = LogEntry.downloadError err) ∨ (∃ err, e = LogEntry.conversionError err)
      ∨ ∃ i o, e = LogEntry.processing i o := by
  cases e with
  | usage => exact absurd rfl hk.1
  | csvError err => exact absurd rfl (hk.2 err)
  | downloadError err => exact Or.inl ⟨err, rfl⟩
  | processing i o => exact Or.inr (Or.inr ⟨i, o, rfl⟩)
  | conversionError err => exact Or.inr (Or.inl ⟨err, rfl⟩)

/-- C2. Whatever the links, the outcomes of the downloads and conversions and the
interleaving are, with at least one CPU: a state in which `main` has not returned
has a step, every step lowers a measure, so a run has at most that many steps, and
the run can be completed; when `main` has returned nothing has panicked, the files written are
exactly the paths `Join(outputDir, "image<i>-grayscaled.jpg")` of the positions `i`
whose download and conversion succeeded, each once, and the log holds one error per
failed download and one per failed conversion and otherwise only progress lines;
in particular `N` outputs and no error when nothing fails, `N - 1` outputs and one
error when exactly one download fails, and nothing at all for the empty list. -/
theorem pipeline_runs_to_completion (cfg : Cfg) (hcpu : 0 < cfg.numCPU) (s : PState)
    (hs : Reachable cfg s) :
    (s.pc ≠ MainPc.returned → ∃ a t, step cfg a s = some t)
    ∧ (∀ a t, step cfg a s = some t → t.measure cfg < s.measure cfg)
    ∧ (∀ as t, exec cfg as s = some t → as.length ≤ s.measure cfg)
    ∧ (∃ as t, exec cfg as s = some t ∧ t.pc = MainPc.returned)
    ∧ (s.pc = MainPc.returned →
        s.panicked = false
        ∧ (∀ p, p ∈ s.world.ext ↔
            ∃ id, id < cfg.imageLinks.length ∧ cfg.downloadResult id = none ∧
              cfg.convertResult (stagedImage id) = none ∧
              p = Join [cfg.outputDirPath,
                "image".toList ++ Itoa id ++ "-grayscaled.jpg".toList])
        ∧ s.world.ext.Nodup
        ∧ s.world.ext.length = (List.range cfg.imageLinks.length).countP (fun id =>
            decide (cfg.downloadResult id = none ∧ cfg.convertResult (stagedImage id) = none))
        ∧ (downloadErrors s.world.log).Perm
            ((List.range cfg.imageLinks.length).filterMap cfg.downloadResult)
        ∧ (conversionErrors s.world.log).Perm
            ((List.range cfg.imageLinks.length).filterMap fun id =>
              if cfg.downloadResult id = none then cfg.convertResult (stagedImage id) else none)
        ∧ (∀ e ∈ s.world.log,
            (∃ err, e = LogEntry.downloadError err) ∨ (∃ err, e = LogEntry.conversionError err)
              ∨ ∃ i o, e = LogEntry.processing i o)
        ∧ ((∀ id, id < cfg.imageLinks.length →
              cfg.downloadResult id = none ∧ cfg.convertResult (stagedImage id) = none) →
            s.world.ext.length = cfg.imageLinks.length ∧ downloadErrors s.world.log = []
              ∧ conversionErrors s.world.log = [])
        ∧ (∀ k, k < cfg.imageLinks.length → cfg.downloadResult k ≠ none →
            (∀ id, id < cfg.imageLinks.length → id ≠ k →
              cfg.downloadResult id = none ∧ cfg.convertResult (stagedImage id) = none) →
            s.world.ext.length = cfg.imageLinks.length - 1
              ∧ (downloadErrors s.world.log).length = 1 ∧ conversionErrors s.world.log = [])
        ∧ (cfg.imageLinks = [] → s.world.ext = [] ∧ s.world.log = [])) := by
  have hI := inv_reachable cfg s hs
  have hD := dinv_reachable cfg s hs
  refine ⟨progress cfg s hI, fun a t h => measure_step cfg a s t h,
    fun as t h => le_trans (Nat.le_add_right _ _) (exec_length_le cfg as s t h),
    runs_to_completion cfg _ s le_rfl hI, ?_⟩
  intro hpc
  have hC := completed_of_returned cfg hcpu s hI hD hpc
  have hlen : s.world.ext.length = (List.range cfg.imageLinks.length).countP (fun id =>
      decide (cfg.downloadResult id = none ∧ cfg.convertResult (stagedImage id) = none)) := by
    rw [hC.outputs.length_eq, List.length_filterMap_eq_countP]
    apply List.countP_congr
    intro id _
    unfold expectedOutput
    split <;> simp [*]
  have hdlen : (downloadErrors s.world.log).length
      = (List.range cfg.imageLinks.length).countP (fun id => (cfg.downloadResult id).isSome) := by
    rw [hC.dlErrors.length_eq, List.length_filterMap_eq_countP]
  refine ⟨hI.notPanicked, ?_, ?_, hlen, hC.dlErrors, hC.convErrors, ?_, ?_, ?_, ?_⟩
  · intro p
    rw [hC.outputs.mem_iff, mem_expectedOutputs]
    rfl
  · exact hC.outputs.nodup_iff.mpr (expectedOutputs_nodup cfg)
  · intro e he
    exact entry_kinds e (hD.logKinds e he)
  · intro hall
    refine ⟨?_, ?_, ?_⟩
    · rw [hlen]
      have : (List.range cfg.imageLinks.length).countP (fun id =>
          decide (cfg.downloadResult id = none ∧ cfg.convertResult (stagedImage id) = none))
          = (List.range cfg.imageLinks.length).length := by
        rw [List.countP_eq_length]
        intro id hid
        simpa using hall id (List.mem_range.mp hid)
      rw [this, List.length_range]
    · apply List.Perm.eq_nil
      have h0 : (List.range cfg.imageLinks.length).filterMap cfg.downloadResult = [] := by
        rw [List.filterMap_eq_nil_iff]
        intro id hid
        exact (hall id (List.mem_range.mp hid)).1
      rw [← h0]
      exact hC.dlErrors
    · apply List.Perm.eq_nil
      have h0 : (List.range cfg.imageLinks.length).filterMap (expectedConversionError cfg)
          = [] := by
        rw [List.filterMap_eq_nil_iff]
        intro id hid
        have := hall id (List.mem_range.mp hid)
        simp [expectedConversionError, this.1, this.2]
      rw [← h0]
      exact hC.convErrors
  · intro k hk hfail hothers
    refine ⟨?_, ?_, ?_⟩
    · rw [hlen]
      apply countP_range_ne _ k hk
      intro id hid
      simp only [decide_eq_true_eq]
      constructor
      · rintro ⟨h1, _⟩ rfl
        exact hfail h1
      · intro hne
        exact hothers id hid hne
    · rw [hdlen]
      apply countP_range_eq _ k hk
      intro id hid
      constructor
      · intro h
        by_contra hne
        have := (hothers id hid hne).1
        rw [this] at h
        cases h
      · rintro rfl
        cases hr : cfg.downloadResult id with
        | none => exact absurd hr hfail
        | some e => rfl
    · apply List.Perm.eq_nil
      have h0 : (List.range cfg.imageLinks.length).filterMap (expectedConversionError cfg)
          = [] := by
        rw [List.filterMap_eq_nil_iff]
        intro id hid
        by_cases hik : id = k
        · subst hik
          simp [expectedConversionError, hfail]
        · have := hothers id (List.mem_range.mp hid) hik
          simp [expectedConversionError, this.1, this.2]
      rw [← h0]
      exact hC.convErrors
  · intro hnil
    have hN : cfg.imageLinks.length = 0 := by rw [hnil]; rfl
    have h1 := hC.outputs
    have h2 := hC.dlErrors
    have h3 := hC.convErrors
    have h4 := hC.processed
    rw [hN] at h1 h2 h3 h4
    simp only [List.range_zero, List.filterMap_nil] at h1 h2 h3 h4
    exact ⟨h1.eq_nil, log_eq_nil _ hD.logKinds h4.eq_nil h2.eq_nil h3.eq_nil⟩

theorem exampleFinal_reachable : Reachable exampleCfg exampleFinal :=
  reachable_exec exampleCfg exampleRun _ _ Reachable.init (by decide)

theorem busyState_reachable : Reachable busyCfg busyState :=
  reachable_exec busyCfg busyRun _ _ Reachable.init (by decide)

/-- C2 on the run `exampleRun`: one of the two downloads fails, one file is written. -/
theorem pipeline_runs_to_completion_witness :
    exec exampleCfg exampleRun (PState.init exampleCfg) = some exampleFinal
      ∧ exampleFinal.pc = MainPc.returned
      ∧ exampleFinal.world.ext = ["out/image0-grayscaled.jpg".toList]
      ∧ exampleFinal.world.ext.length = exampleCfg.imageLinks.length - 1
      ∧ (downloadErrors exampleFinal.world.log).length = 1 :=
  have h := (pipeline_runs_to_completion exampleCfg (by decide) exampleFinal
    exampleFinal_reachable).2.2.2.2 (by decide)
  have h1 := h.2.2.2.2.2.2.2.2.1 1 (by decide) (by decide) (by
    intro id hid hne
    have : id = 0 := by
      have : id < 2 := hid
      omega
    subst this
    exact ⟨by decide, by decide⟩)
  ⟨by decide, by decide, by decide, h1.1, h1.2.1⟩

/-! ### The channel is closed once, after the downloads -/

theorem closed_trans (cfg : Cfg) (a : Action) (s t : PState) (hI : Inv cfg s)
    (ht : Trans cfg a s t) :
    (a = Action.close ∧ s.downloadedImage.closed = false ∧ t.downloadedImage.closed = true
        ∧ s.coordinator = Coordinator.closing ∧ t.coordinator = Coordinator.finished)
      ∨ (a ≠ Action.close ∧ t.downloadedImage.closed = s.downloadedImage.closed) := by
  cases ht with
  | closeClosed _ hc hcl =>
    have := hI.closed_iff.mp hcl
    rw [hc] at this
    cases this
  | close _ hc hcl => exact Or.inl ⟨rfl, hcl, rfl, hc, rfl⟩
  | spawnDownload _ id hpc hlt => exact Or.inr ⟨by simp, rfl⟩
  | spawnCoordinator _ id hpc hge => exact Or.inr ⟨by simp, rfl⟩
  | addWorkers _ hpc => exact Or.inr ⟨by simp, rfl⟩
  | spawnWorker _ p hpc hle => exact Or.inr ⟨by simp, rfl⟩
  | workersSpawned _ p hpc hle => exact Or.inr ⟨by simp, rfl⟩
  | mainReturns _ hpc h0 => exact Or.inr ⟨by simp, rfl⟩
  | downloadFails _ id link err hd hl herr => exact Or.inr ⟨by simp, rfl⟩
  | downloadOk _ id link hd hl herr => exact Or.inr ⟨by simp, rfl⟩
  | handOff _ id w hd hw hcl hbuf => exact Or.inr ⟨by simp, rfl⟩
  | sendBuffered _ id hd hcl hlt => exact Or.inr ⟨by simp, rfl⟩
  | sendClosed _ id hd hcl => exact Or.inr ⟨by simp, rfl⟩
  | downloadDoneNegative _ id hd h0 => exact Or.inr ⟨by simp, rfl⟩
  | downloadDone _ id hd h0 => exact Or.inr ⟨by simp, rfl⟩
  | waitReturns _ hc h0 => exact Or.inr ⟨by simp, rfl⟩
  | receive _ w image rest hw hb => exact Or.inr ⟨by simp, rfl⟩
  | processFails _ w image err hw hres => exact Or.inr ⟨by simp, rfl⟩
  | processOk _ w image hw hres => exact Or.inr ⟨by simp, rfl⟩
  | workerDoneNegative _ w hw hcl hbuf h0 => exact Or.inr ⟨by simp, rfl⟩
  | workerDone _ w hw hcl hbuf h0 => exact Or.inr ⟨by simp, rfl⟩

theorem closed_step (cfg : Cfg) (a : Action) (s t : PState) (hI : Inv cfg s)
    (h : step cfg a s = some t) :
    (a = Action.close ∧ s.downloadedImage.closed = false ∧ t.downloadedImage.closed = true
        ∧ s.coordinator = Coordinator.closing ∧ t.coordinator = Coordinator.finished)
      ∨ (a ≠ Action.close ∧ t.downloadedImage.closed = s.downloadedImage.closed) :=
  closed_trans cfg a s t hI (step_trans cfg a s t h).2.2

theorem no_panic_step (cfg : Cfg) (a : Action) (s t : PState) (hI : Inv cfg s)
    (h : step cfg a s = some t) : t.panicked = false :=
  (inv_step cfg a s t hI h).notPanicked

theorem sendClosed_disabled (cfg : Cfg) (s : PState) (hI : Inv cfg s) (id : Nat) :
    step cfg (Action.sendClosed id) s = none := by
  cases h : step cfg (Action.sendClosed id) s with
  | none => rfl
  | some t =>
    have hp := no_panic_step cfg _ s t hI h
    have ht := (step_trans cfg _ s t h).2.2
    cases ht with
    | sendClosed _ _ hd hcl => cases hp

theorem close_disabled (cfg : Cfg) (s : PState) (hI : Inv cfg s) (hcl : s.downloadedImage.closed = true) :
    step cfg Action.close s = none := by
  cases h : step cfg Action.close s with
  | none => rfl
  | some t =>
    rcases closed_step cfg _ s t hI h with ⟨_, hf, _⟩ | ⟨hne, _⟩
    · rw [hcl] at hf
      cases hf
    · exact absurd rfl hne

theorem count_close (cfg : Cfg) :
    ∀ (as : List Action) (s t : PState), Inv cfg s → exec cfg as s = some t →
      as.count Action.close + (if s.downloadedImage.closed = true then 1 else 0)
        = if t.downloadedImage.closed = true then 1 else 0 := by
  intro as
  induction as with
  | nil =>
    intro s t _ h
    simp only [exec] at h
    cases h
    simp
  | cons a as ih =>
    intro s t hI h
    simp only [exec] at h
    cases hstep : step cfg a s with
    | none => rw [hstep] at h; cases h
    | some u =>
      rw [hstep] at h
      have hrec := ih u t (inv_step cfg a s u hI hstep) h
      rcases closed_step cfg a s u hI hstep with ⟨ha, hs, hu, _⟩ | ⟨hne, hu⟩
      · subst ha
        rw [hu] at hrec
        rw [hs]
        simp only [List.count_cons_self] at hrec ⊢
        simp at hrec ⊢
        omega
      · rw [hu] at hrec
        rw [List.count_cons_of_ne (Ne.symm hne)]
        exact hrec

/-- C5. In every reachable state nothing has panicked; the channel is closed only
when every download task has finished (and so is the coordinator past `Wait`); the
only step that changes the closed flag is the `close` of the coordinator, from open
to closed; once the channel is closed, `close` cannot be taken again and no send is
possible; no send ever finds the channel closed; in every run from the state the
number of `close` steps is the change of the closed flag, so at most one; and with
at least one CPU the channel is closed when `main` has returned. -/
theorem channel_closed_once_after_downloads (cfg : Cfg) (s : PState) (hs : Reachable cfg s) :
    s.panicked = false
    ∧ (s.downloadedImage.closed = true →
        ∀ id, id < cfg.imageLinks.length → s.downloads[id]? = some Download.finished)
    ∧ (s.coordinator = Coordinator.closing →
        ∀ id, id < cfg.imageLinks.length → s.downloads[id]? = some Download.finished)
    ∧ (s.downloadedImage.closed = true ↔ s.coordinator = Coordinator.finished)
    ∧ (∀ a t, step cfg a s = some t → t.downloadedImage.closed ≠ s.downloadedImage.closed →
        a = Action.close ∧ s.downloadedImage.closed = false ∧ t.downloadedImage.closed = true
          ∧ s.coordinator = Coordinator.closing)
    ∧ (∀ a t, step cfg a s = some t → t.panicked = false)
    ∧ (s.downloadedImage.closed = true → step cfg Action.close s = none)
    ∧ (∀ id, step cfg (Action.sendClosed id) s = none)
    ∧ (s.downloadedImage.closed = true → ∀ id w, step cfg (Action.handOff id w) s = none
        ∧ step cfg (Action.sendBuffered id) s = none)
    ∧ (∀ as t, exec cfg as s = some t →
        as.count Action.close + (if s.downloadedImage.closed = true then 1 else 0)
          = if t.downloadedImage.closed = true then 1 else 0)
    ∧ (0 < cfg.numCPU → s.pc = MainPc.returned → s.downloadedImage.closed = true) := by
  have hI := inv_reachable cfg s hs
  have hfin : (s.coordinator = Coordinator.closing ∨ s.coordinator = Coordinator.finished) →
      ∀ id, id < cfg.imageLinks.length → s.downloads[id]? = some Download.finished := by
    intro hc id hid
    have hlt : id < s.downloads.length := by rw [hI.len]; exact hid
    rw [List.getElem?_eq_getElem hlt]
    congr 1
    exact hI.coordDone hc _ (List.getElem_mem hlt)
  refine ⟨hI.notPanicked, fun hcl => hfin (Or.inr (hI.closed_iff.mp hcl)),
    fun hc => hfin (Or.inl hc), hI.closed_iff, ?_, fun a t h => no_panic_step cfg a s t hI h,
    close_disabled cfg s hI, sendClosed_disabled cfg s hI, ?_,
    fun as t h => count_close cfg as s t hI h, ?_⟩
  · intro a t h hne
    rcases closed_step cfg a s t hI h with ⟨ha, h1, h2, h3, _⟩ | ⟨_, heq⟩
    · exact ⟨ha, h1, h2, h3⟩
    · exact absurd heq hne
  · intro hcl id w
    constructor
    · cases h : step cfg (Action.handOff id w) s with
      | none => rfl
      | some t =>
        have ht := (step_trans cfg _ s t h).2.2
        cases ht with
        | handOff _ _ _ hd hw hc hb =>
          rw [hcl] at hc
          cases hc
    · cases h : step cfg (Action.sendBuffered id) s with
      | none => rfl
      | some t =>
        have ht := (step_trans cfg _ s t h).2.2
        cases ht with
        | sendBuffered _ _ hd hc hb =>
          rw [hcl] at hc
          cases hc
  · intro hcpu hpc
    exact (completed_of_returned cfg hcpu s hI (dinv_reachable cfg s hs) hpc).closed

/-- C5 on the run `exampleRun`: the channel is closed at the end, by the one `close`
step of the run. -/
theorem channel_closed_once_after_downloads_witness :
    exampleFinal.downloadedImage.closed = true ∧ exampleRun.count Action.close = 1
      ∧ exampleFinal.downloads = [Download.finished, Download.finished] :=
  have h := channel_closed_once_after_downloads exampleCfg (PState.init exampleCfg)
    Reachable.init
  have hc := h.2.2.2.2.2.2.2.2.2.1 exampleRun exampleFinal (by decide)
  ⟨by decide, by simpa [PState.init, makeChan] using hc, by decide⟩

/-! ### The worker pool -/

/-- C6. In every reachable state at most `runtime.NumCPU()` workers exist, at most
that many calls of `ProcessImage` are in flight, and once `main` has left the loop
of line 91 exactly `runtime.NumCPU()` workers have been started, whatever the
number of links is; only `main` changes the number of workers. -/
theorem worker_pool_bounded (cfg : Cfg) (s : PState) (hs : Reachable cfg s) :
    s.workers.length ≤ cfg.numCPU
    ∧ s.workers.countP Worker.inFlight ≤ cfg.numCPU
    ∧ (s.pc = MainPc.waitWorkers ∨ s.pc = MainPc.returned → s.workers.length = cfg.numCPU)
    ∧ (∀ a t, step cfg a s = some t → a ≠ Action.main → t.workers.length = s.workers.length) := by
  have hI := inv_reachable cfg s hs
  have hlen : s.workers.length ≤ cfg.numCPU := by
    rw [hI.workersLen]
    have hb := hI.loopBound
    cases hpc : s.pc with
    | spawnDownloads id => simp [spawnedWorkers]
    | addWorkers => simp [spawnedWorkers]
    | spawnWorkers p =>
      have := hb p hpc
      simp only [spawnedWorkers]
      omega
    | waitWorkers => simp [spawnedWorkers]
    | returned => simp [spawnedWorkers]
  refine ⟨hlen, le_trans (List.countP_le_length _) hlen, ?_, ?_⟩
  · rintro (hpc | hpc)
    · rw [hI.workersLen, hpc]
      rfl
    · rw [hI.workersLen, hpc]
      rfl
  · intro a t h hne
    have ht := (step_trans cfg a s t h).2.2
    cases ht <;> first
      | exact absurd rfl hne
      | rfl
      | simp

/-- C6 on the state `busyState`: one CPU, two links, one conversion in flight. -/
theorem worker_pool_bounded_witness :
    busyCfg.numCPU = 1 ∧ busyCfg.imageLinks.length = 2
      ∧ busyState.workers.countP Worker.inFlight = 1
      ∧ busyState.workers.countP Worker.inFlight ≤ busyCfg.numCPU :=
  ⟨rfl, rfl, by decide, (worker_pool_bounded busyCfg busyState busyState_reachable).2.1⟩

/-! ### The staging channel has no buffer -/

theorem getElem?_set_other (ds : List Download) (i j : Nat) (a b : Download)
    (hi : ds[i]? = some a) (hj : ds[j]? = some Download.sending) (ha : a ≠ Download.sending) :
    (ds.set i b)[j]? = some Download.sending := by
  rw [getElem?_set_of_some ds i j a b hi]
  have hij : i ≠ j := by
    rintro rfl
    rw [hi] at hj
    exact ha (Option.some.inj hj)
  rw [if_neg hij]
  exact hj

/-- The send of a download task is completed only by a hand-over to a worker that
stands at its receive. -/
theorem send_needs_receiver (cfg : Cfg) (a : Action) (s t : PState) (hI : Inv cfg s)
    (ht : Trans cfg a s t) (id : Nat) (hd : s.downloads[id]? = some Download.sending)
    (hne : t.downloads[id]? ≠ some Download.sending) :
    ∃ w, a = Action.handOff id w ∧ s.workers[w]? = some Worker.receiving
      ∧ t.workers[w]? = some (Worker.processing (stagedImage id))
      ∧ t.downloads[id]? = some Download.returning := by
  cases ht with
  | spawnDownload _ id' hpc hlt =>
    have habs : s.downloads[id']? = some Download.absent := by
      rw [hI.absent_iff, hpc]
      exact ⟨le_rfl, hlt⟩
    exact absurd (getElem?_set_other _ _ _ _ _ habs hd (by simp)) hne
  | spawnCoordinator _ id' hpc hge => exact absurd hd hne
  | addWorkers _ hpc => exact absurd hd hne
  | spawnWorker _ p hpc hle => exact absurd hd hne
  | workersSpawned _ p hpc hle => exact absurd hd hne
  | mainReturns _ hpc h0 => exact absurd hd hne
  | downloadFails _ id' link err hd' hl herr =>
    exact absurd (getElem?_set_other _ _ _ _ _ hd' hd (by simp)) hne
  | downloadOk _ id' link hd' hl herr =>
    exact absurd (getElem?_set_other _ _ _ _ _ hd' hd (by simp)) hne
  | handOff _ id' w hd' hw hcl hbuf =>
    by_cases hii : id' = id
    · subst hii
      refine ⟨w, rfl, hw, ?_, ?_⟩
      · show (s.workers.set w _)[w]? = _
        rw [getElem?_set_of_some _ w w _ _ hw, if_pos rfl]
      · show (s.downloads.set id' _)[id']? = _
        rw [getElem?_set_of_some _ id' id' _ _ hd', if_pos rfl]
    · exfalso
      apply hne
      show (s.downloads.set id' _)[id]? = _
      rw [getElem?_set_of_some _ id' id _ _ hd', if_neg hii]
      exact hd
  | sendBuffered _ id' hd' hcl hlt =>
    rw [hI.cap] at hlt
    omega
  | sendClosed _ id' hd' hcl => exact absurd hd hne
  | downloadDoneNegative _ id' hd' h0 => exact absurd hd hne
  | downloadDone _ id' hd' h0 =>
    exact absurd (getElem?_set_other _ _ _ _ _ hd' hd (by simp)) hne
  | waitReturns _ hc h0 => exact absurd hd hne
  | closeClosed _ hc hcl => exact absurd hd hne
  | close _ hc hcl => exact absurd hd hne
  | receive _ w image rest hw hb => exact absurd hd hne
  | processFails _ w image err hw hres => exact absurd hd hne
  | processOk _ w image hw hres => exact absurd hd hne
  | workerDoneNegative _ w hw hcl hbuf h0 => exact absurd hd hne
  | workerDone _ w hw hcl hbuf h0 => exact absurd hd hne

/-- C7, as stated, fails: the channel made by `make(chan string)` has capacity 0, and
in the reachable state `busyState` the download task of position 1 has succeeded and
stands at its send while the only worker is busy; no step from that state completes
the send or puts the handle into the channel. -/
theorem staging_channel_unbounded_counterexample :
    (PState.init busyCfg).downloadedImage.cap = 0
      ∧ exec busyCfg busyRun (PState.init busyCfg) = some busyState
      ∧ busyCfg.downloadResult 1 = none
      ∧ busyState.downloads[1]? = some Download.sending
      ∧ ∀ a t, step busyCfg a busyState = some t →
          t.downloads[1]? = some Download.sending ∧ t.downloadedImage.buf = [] := by
  refine ⟨rfl, by decide, by decide, by decide, ?_⟩
  intro a t h
  have hI := inv_reachable busyCfg busyState busyState_reachable
  refine ⟨?_, (inv_step busyCfg a _ t hI h).buf⟩
  by_contra hne
  obtain ⟨w, _, hw, _⟩ := send_needs_receiver busyCfg a busyState t hI
    (step_trans busyCfg a _ t h).2.2 1 (by decide) hne
  have hws : busyState.workers = [Worker.processing (stagedImage 0)] := by decide
  rw [hws] at hw
  cases w with
  | zero => simp at hw
  | succ w => simp at hw

/-- C7, amended. The staging channel is unbuffered: in every reachable state its
capacity is 0 and it holds no handle, and a step after which a download task no
longer stands at its send is the hand-over of its handle to a worker that stood at
its receive and now converts that handle. -/
theorem staging_channel_unbuffered (cfg : Cfg) (s : PState) (hs : Reachable cfg s) :
    s.downloadedImage.cap = 0
    ∧ s.downloadedImage.buf = []
    ∧ (∀ a t id, step cfg a s = some t → s.downloads[id]? = some Download.sending →
        t.downloads[id]? ≠ some Download.sending →
        ∃ w, a = Action.handOff id w ∧ s.workers[w]? = some Worker.receiving
          ∧ t.workers[w]? = some (Worker.processing (stagedImage id))
          ∧ t.downloads[id]? = some Download.returning)
    ∧ (∀ id, step cfg (Action.sendBuffered id) s = none)
    ∧ (∀ w, step cfg (Action.receive w) s = none) := by
  have hI := inv_reachable cfg s hs
  refine ⟨hI.cap, hI.buf, ?_, ?_, ?_⟩
  · intro a t id h hd hne
    exact send_needs_receiver cfg a s t hI (step_trans cfg a s t h).2.2 id hd hne
  · intro id
    cases h : step cfg (Action.sendBuffered id) s with
    | none => rfl
    | some t =>
      have ht := (step_trans cfg _ s t h).2.2
      cases ht with
      | sendBuffered _ _ hd hc hb =>
        rw [hI.cap] at hb
        omega
  · intro w
    cases h : step cfg (Action.receive w) s with
    | none => rfl
    | some t =>
      have ht := (step_trans cfg _ s t h).2.2
      cases ht with
      | receive _ _ image rest hw hb =>
        rw [hI.buf] at hb
        cases hb

/-- C7, amended, on the run `exampleRun`: the handle of position 0 goes to worker 0. -/
theorem staging_channel_unbuffered_witness :
    busyState.downloadedImage.cap = 0 ∧ busyState.downloadedImage.buf = []
      ∧ busyState.workers[0]? = some (Worker.processing "inputs/image0.jpg".toList) :=
  have h := staging_channel_unbuffered busyCfg busyState busyState_reachable
  ⟨h.1, h.2.1, by decide⟩

/-! ### The start-up part of `main` -/

/-- C4. The code at the failing inputs: with both flags set, when the input file
cannot be opened, or when a row is malformed, `readCSV` returns the error and `main`
logs it and returns at line 50, so the process ends with status 0 and not with a
non-zero status as the claim says; the pipeline is not set up.  The other fatal
start-up path, the flag check of lines 41-44, does exit with status 1. -/
theorem startup_csv_error_exit_status :
    readCSV (fun _ => Except.error { message := "no such file".toList }) "links.csv".toList
        = Except.error { message := "no such file".toList }
      ∧ mainStartup (fun _ => Except.error { message := "no such file".toList })
          "links.csv".toList "out".toList busyCfg
        = Startup.returned [LogEntry.csvError { message := "no such file".toList }]
      ∧ (mainStartup (fun _ => Except.error { message := "no such file".toList })
          "links.csv".toList "out".toList busyCfg).exitStatus = some 0
      ∧ readCSV
          (fun _ => Except.ok [Except.ok ["http://example.org/a.jpg".toList],
            Except.error { message := "bare quote in field".toList }])
          "links.csv".toList
        = Except.error { message := "bare quote in field".toList }
      ∧ (mainStartup
          (fun _ => Except.ok [Except.ok ["http://example.org/a.jpg".toList],
            Except.error { message := "bare quote in field".toList }])
          "links.csv".toList "out".toList busyCfg).exitStatus = some 0
      ∧ (mainStartup (fun _ => Except.ok []) "links.csv".toList [] busyCfg).exitStatus
        = some 1 :=
  ⟨rfl, rfl, rfl, rfl, rfl, rfl⟩

/-! ### Staging files -/

theorem createdOf_injective (cfg : Cfg) :
    ∀ a a' b, b ∈ createdOf cfg (some Download.finished) a →
      b ∈ createdOf cfg (some Download.finished) a' → a = a' := by
  intro a a' b ha ha'
  have h1 : b = stagedImage a := by
    unfold createdOf at ha
    split at ha <;> first
      | (split at ha
         · exact (Option.some.inj ha).symm
         · cases ha)
      | cases ha
  have h2 : b = stagedImage a' := by
    unfold createdOf at ha'
    split at ha' <;> first
      | (split at ha'
         · exact (Option.some.inj ha').symm
         · cases ha')
      | cases ha'
  exact stagedImage_injective (h1.symm.trans h2)

theorem createdOf_some (cfg : Cfg) (d : Option Download) (id : Nat) (p : GoString)
    (h : createdOf cfg d id = some p) :
    p = stagedImage id ∧ createdOf cfg (some Download.finished) id = some p := by
  unfold createdOf at h ⊢
  split at h
  · split at h
    · rename_i hl hc
      cases h
      simp [hl, hc]
    · cases h
  · split at h
    · rename_i hl hc
      cases h
      simp [hl, hc]
    · cases h
  · split at h
    · rename_i hl hc
      cases h
      simp [hl, hc]
    · cases h
  · cases h

theorem created_nodup (cfg : Cfg) (s : PState) (hD : DInv cfg s) : s.created.Nodup := by
  rw [hD.staged.nodup_iff]
  apply List.Nodup.filterMap _ (List.nodup_range _)
  intro a a' b ha ha'
  have h1 := createdOf_some cfg _ a b ha
  have h2 := createdOf_some cfg _ a' b ha'
  exact createdOf_injective cfg a a' b h1.2 h2.2

theorem created_mem (cfg : Cfg) (s : PState) (hD : DInv cfg s) (p : GoString)
    (hp : p ∈ s.created) : ∃ id, id < cfg.imageLinks.length ∧ p = stagedImage id := by
  rw [hD.staged.mem_iff, List.mem_filterMap] at hp
  obtain ⟨id, hid, h⟩ := hp
  exact ⟨id, List.mem_range.mp hid, (createdOf_some cfg _ id p h).1⟩

/-- C8. The download task for position `i` creates no file other than
`Join("inputs", "image<i>.jpg")`, which is `inputs/image<i>.jpg` with `i` in decimal;
two distinct positions have different staging files; and in every reachable state of
the pipeline the files created by the download tasks are staging files of positions
of the list, no file created twice. -/
theorem staging_files_distinct (cfg : Cfg) (s : PState) (hs : Reachable cfg s) (i j : Nat)
    (h : i ≠ j) (env : DownloadEnv) (link : GoString) (created : List GoString) :
    ((GetImageFromLink env "inputs".toList (imageFilename i) link created).2 = created
      ∨ (GetImageFromLink env "inputs".toList (imageFilename i) link created).2
          = created ++ [Join ["inputs".toList, imageFilename i]])
    ∧ (env.httpGet link = none → env.osCreate (Join ["inputs".toList, imageFilename i]) = none →
        (GetImageFromLink env "inputs".toList (imageFilename i) link created).2
          = created ++ [Join ["inputs".toList, imageFilename i]])
    ∧ Join ["inputs".toList, imageFilename i] = "inputs/image".toList ++ Itoa i ++ ".jpg".toList
    ∧ parseDecimal 0 (Itoa i) = i
    ∧ Join ["inputs".toList, imageFilename i] ≠ Join ["inputs".toList, imageFilename j]
    ∧ s.created.Nodup
    ∧ (∀ p ∈ s.created, ∃ id, id < cfg.imageLinks.length ∧
        p = Join ["inputs".toList, imageFilename id]) := by
  have hD := dinv_reachable cfg s hs
  refine ⟨?_, ?_, ?_, parseDecimal_Itoa i, ?_, created_nodup cfg s hD, created_mem cfg s hD⟩
  · rw [GetImageFromLink_created]
    split
    · exact Or.inr rfl
    · exact Or.inl rfl
  · intro h1 h2
    rw [GetImageFromLink_created, if_pos ⟨h1, h2⟩]
  · have := stagedImage_eq i
    unfold stagedImage at this
    rw [this]
    simp [imageFilename]
  · intro heq
    exact h (stagedImage_injective heq)

/-- C8 at the positions 0 and 1 and the state after `exampleRun`, in which the one
successful download has created its staging file. -/
theorem staging_files_distinct_witness :
    Join ["inputs".toList, imageFilename 0] = "inputs/image0.jpg".toList
    ∧ Join ["inputs".toList, imageFilename 0] ≠ Join ["inputs".toList, imageFilename 1]
    ∧ exampleFinal.created = ["inputs/image0.jpg".toList] :=
  have h := staging_files_distinct exampleCfg exampleFinal exampleFinal_reachable 0 1
    (by decide)
    { httpGet := fun _ => none, osCreate := fun _ => none, ioCopy := fun _ => none } [] []
  ⟨h.2.2.1, h.2.2.2.2.1, by decide⟩

end ImagePipeline
